import Mathlib

/-!
Verification of the hierarchical attribute-inheritance and per-project
schema engine of the openpype4 backend.

The development shallowly embeds the relevant Python code
(openpype/entities/folder.py, openpype/entities/task.py,
openpype/entities/project.py, api/crud_folders/folders.py,
openpype/graphql/nodes/folder.py) over an explicit database state:

* attribute bags (Python dicts / postgres jsonb maps) are association
  lists with right-biased update, observed through the lookup
  function dget;
* each per-project table (folders, exported_attributes, tasks,
  subsets, versions, thumbnails, the hierarchy view) is a list of rows;
* every SQL statement of the sources is translated into the
  corresponding pure query/transformation on that state;
* exception flow (constraint violations) is modelled by functions from
  the injected outcome of each SQL statement to an Except value that
  mirrors the try/except structure of the sources.

Attribute values are modelled as integers: every operation the code
performs on bags is key-driven (lookup, overlay, key deletion), so the
value type is irrelevant to all properties proved here.

Timestamps (created_at / updated_at) and the free-form data column are
omitted: no property below mentions them.
-/

/-! ## Attribute bags (Python dict semantics) -/

/-- An attribute bag: a Python dict mapping attribute names to values. -/
abbrev Dict := List (String × Int)

/-- Left-biased option choice, written out so proofs unfold by rfl. -/
def optOr (x y : Option Int) : Option Int :=
  match x with
  | some v => some v
  | none => y

/-- Dictionary lookup, d[k] when present. -/
def dget (d : Dict) (k : String) : Option Int :=
  match d.find? (fun p => p.1 == k) with
  | some p => some p.2
  | none => none

/-- Python dict.update / the | merge operator: dupdate a b is a updated
with b, so on key clashes the values of b win.  Observed through dget
this is exactly right-biased union. -/
def dupdate (a b : Dict) : Dict :=
  b ++ a

theorem dget_dupdate (a b : Dict) (k : String) :
    dget (dupdate a b) k = optOr (dget b k) (dget a k) := by
  unfold dget dupdate optOr
  rw [List.find?_append]
  cases b.find? (fun p => p.1 == k) <;> simp [Option.orElse]

theorem dget_nil (k : String) : dget [] k = none := rfl

/-! ## Database state

One project worth of tables, plus the project-scope attribute bag from
the public.projects row. -/

/-- A row of project_X.folders. -/
structure FolderRow where
  id : String
  name : String
  folder_type : Option String := none
  parent_id : Option String := none
  thumbnail_id : Option String := none
  attrib : Dict := []
  active : Bool := true
deriving Repr, DecidableEq

/-- A row of the project_X.exported_attributes cache table. -/
structure ExportedRow where
  folder_id : String
  path : String
  attrib : Dict
deriving Repr, DecidableEq

/-- A row of project_X.tasks. -/
structure TaskRow where
  id : String
  name : String
  task_type : Option String := none
  folder_id : String
  attrib : Dict := []
  active : Bool := true
deriving Repr, DecidableEq

/-- A row of project_X.subsets (only the columns the claims touch). -/
structure SubsetRow where
  id : String
  folder_id : String
deriving Repr, DecidableEq

/-- A row of project_X.versions (only the columns the claims touch). -/
structure VersionRow where
  id : String
  subset_id : String
deriving Repr, DecidableEq

/-- The database state visible to the entity store for one project:
the project row's attribute bag and the per-project namespace tables.
hierarchy is the materialized view (id, path). thumbnails holds the ids
of the stored thumbnail rows. -/
structure DBState where
  project_attrib : Dict := []
  folders : List FolderRow := []
  hierarchy : List (String × String) := []
  exported : List ExportedRow := []
  thumbnails : List String := []
  subsets : List SubsetRow := []
  versions : List VersionRow := []
  tasks : List TaskRow := []
deriving Repr, DecidableEq

/-- SELECT ... FROM folders WHERE id = fid. -/
def findFolder (db : DBState) (fid : String) : Option FolderRow :=
  db.folders.find? (fun f => f.id == fid)

/-- The hierarchy view's path for a folder id (JOIN hierarchy ON f.id = h.id). -/
def hierarchyPath (db : DBState) (fid : String) : Option String :=
  (db.hierarchy.find? (fun h => h.1 == fid)).map (fun h => h.2)

/-- LEFT JOIN exported_attributes ia ON x = ia.folder_id. -/
def exportedFor (db : DBState) (fid : String) : Option ExportedRow :=
  db.exported.find? (fun e => e.folder_id == fid)

/-! ## FolderEntity.load (openpype/entities/folder.py) -/

/-- The in-memory folder entity produced by FolderEntity.load: the base
columns, the resolved effective attribute bag, the recorded own
attribute keys and the materialized path.  warned records whether the
load hit the missing-inherited-attributes logging branch. -/
structure FolderEntityState where
  id : String
  name : String
  folder_type : Option String
  parent_id : Option String
  thumbnail_id : Option String
  attrib : Dict
  own_attrib : List String
  path : String
  active : Bool
  warned : Bool
deriving Repr, DecidableEq

/-- The inherited_attrib column of the folder load query: the LEFT JOIN
of exported_attributes on f.parent_id = ia.folder_id (NULL for a root
or when the parent has no cache row). -/
def inheritedOf (db : DBState) (f : FolderRow) : Option Dict :=
  f.parent_id.bind (fun pid => (exportedFor db pid).map (fun e => e.attrib))

/-- The attribute-resolution block of FolderEntity.load:

  attrib = record project_attrib or empty;
  if inherited_attrib is not None: attrib.update(inherited_attrib);
  attrib.update(record attrib). -/
def loadedAttrib (db : DBState) (f : FolderRow) : Dict :=
  match inheritedOf db f with
  | some i => dupdate (dupdate db.project_attrib i) f.attrib
  | none => dupdate db.project_attrib f.attrib

/-- FolderEntity.load: selects the folder row joined with the hierarchy
view (INNER), the parent's exported_attributes row (LEFT, on
f.parent_id = ia.folder_id) and the project row, then resolves the
effective bag via loadedAttrib and records own_attrib as the keys of
the row's own bag.  When inherited_attrib is NULL but parent_id is not,
a consistency warning is logged (warned flag).  Returns none where the
SQL returns no row (unknown id, or id missing from the hierarchy view). -/
def FolderEntity.load (db : DBState) (fid : String) : Option FolderEntityState :=
  match findFolder db fid with
  | none => none
  | some f =>
    match hierarchyPath db fid with
    | none => none
    | some path =>
      some
        { id := f.id
          name := f.name
          folder_type := f.folder_type
          parent_id := f.parent_id
          thumbnail_id := f.thumbnail_id
          attrib := loadedAttrib db f
          own_attrib := f.attrib.map (fun p => p.1)
          path := path
          active := f.active
          warned := (inheritedOf db f).isNone && f.parent_id.isSome }

theorem FolderEntity.load_eq (db : DBState) (fid path : String) (f : FolderRow)
    (hf : findFolder db fid = some f) (hp : hierarchyPath db fid = some path) :
    FolderEntity.load db fid = some
        { id := f.id
          name := f.name
          folder_type := f.folder_type
          parent_id := f.parent_id
          thumbnail_id := f.thumbnail_id
          attrib := loadedAttrib db f
          own_attrib := f.attrib.map (fun p => p.1)
          path := path
          active := f.active
          warned := (inheritedOf db f).isNone && f.parent_id.isSome } := by
  unfold FolderEntity.load
  rw [hf, hp]

/-- The layering promised by the spec: project-scope attributes,
overlaid by the parent's cached exported bag when that cache row
exists, overlaid by the entity's own bag; stated pointwise. -/
def specEffectiveLayer (proj : Dict) (parentCache : Option Dict) (own : Dict)
    (k : String) : Option Int :=
  optOr (dget own k)
    (optOr
      (match parentCache with
       | some c => dget c k
       | none => none)
      (dget proj k))

theorem dget_loadedAttrib (db : DBState) (f : FolderRow) (k : String) :
    dget (loadedAttrib db f) k =
      specEffectiveLayer db.project_attrib (inheritedOf db f) f.attrib k := by
  cases hio : inheritedOf db f with
  | none =>
    simp only [loadedAttrib, specEffectiveLayer, hio, dget_dupdate]
    cases dget f.attrib k <;> rfl
  | some i =>
    simp only [loadedAttrib, specEffectiveLayer, hio, dget_dupdate]

theorem dget_loadedAttrib_own (db : DBState) (f : FolderRow) (k : String) (v : Int)
    (hv : dget f.attrib k = some v) : dget (loadedAttrib db f) k = some v := by
  rw [dget_loadedAttrib]
  unfold specEffectiveLayer
  rw [hv]
  simp [optOr]

/-- Extracting the loaded entity's fields from a successful load. -/
theorem FolderEntity.load_fields (db : DBState) (fid : String) (f : FolderRow)
    (ent : FolderEntityState)
    (hf : findFolder db fid = some f)
    (h : FolderEntity.load db fid = some ent) :
    ent.attrib = loadedAttrib db f ∧ ent.own_attrib = f.attrib.map (fun p => p.1) := by
  cases hpath : hierarchyPath db fid with
  | none => unfold FolderEntity.load at h; rw [hf, hpath] at h; exact absurd h (by simp)
  | some path =>
    have := FolderEntity.load_eq db fid path f hf hpath
    rw [h] at this
    simp only [Option.some.injEq] at this
    rw [this]
    exact ⟨rfl, rfl⟩

/-- C1: For every folder F loaded via FolderEntity.load, the effective
attribute bag returned equals the project-scope attributes, overlaid by
the cached exported (inherited) attributes of F's parent when a cache
row for the parent exists, overlaid by F's own attribute bag; whenever
the same key appears in more than one layer, F's own value wins. -/
theorem C1_folder_load_effective_attrib
    (db : DBState) (fid : String) (f : FolderRow) (ent : FolderEntityState)
    (hf : findFolder db fid = some f)
    (h : FolderEntity.load db fid = some ent) (k : String) :
    dget ent.attrib k =
      specEffectiveLayer db.project_attrib (inheritedOf db f) f.attrib k ∧
    (∀ v, dget f.attrib k = some v → dget ent.attrib k = some v) := by
  have hattr := (FolderEntity.load_fields db fid f ent hf h).1
  rw [hattr]
  exact ⟨dget_loadedAttrib db f k, fun v hv => dget_loadedAttrib_own db f k v hv⟩

/-- Concrete instantiation of C1: project sets fps and x, the parent's
cache row overrides x and adds z, the folder's own bag overrides x and
adds y; own x wins. -/
def dbC1 : DBState :=
  { project_attrib := [("fps", 25), ("x", 1)]
    folders :=
      [ { id := "f1", name := "root", attrib := [("x", 7)] }
      , { id := "f2", name := "child", parent_id := some "f1"
          attrib := [("y", 3), ("x", 9)] } ]
    hierarchy := [("f1", "root"), ("f2", "root/child")]
    exported := [{ folder_id := "f1", path := "root", attrib := [("x", 7), ("z", 2)] }] }

def fRowC1 : FolderRow :=
  { id := "f2", name := "child", parent_id := some "f1", attrib := [("y", 3), ("x", 9)] }

def entC1 : FolderEntityState :=
  { id := "f2", name := "child", folder_type := none, parent_id := some "f1"
    thumbnail_id := none
    attrib := dupdate (dupdate dbC1.project_attrib [("x", 7), ("z", 2)]) fRowC1.attrib
    own_attrib := ["y", "x"], path := "root/child", active := true, warned := false }

theorem C1_folder_load_effective_attrib_witness :
    findFolder dbC1 "f2" = some fRowC1 ∧
    FolderEntity.load dbC1 "f2" = some entC1 ∧
    (dget entC1.attrib "x" =
      specEffectiveLayer dbC1.project_attrib (inheritedOf dbC1 fRowC1)
        fRowC1.attrib "x" ∧
    (∀ v, dget fRowC1.attrib "x" = some v → dget entC1.attrib "x" = some v)) :=
  ⟨by decide, by decide,
    C1_folder_load_effective_attrib dbC1 "f2" fRowC1 entC1 (by decide) (by decide) "x"⟩

/-! ## Access Control Filter: attribute visibility
(openpype/graphql/nodes/folder.py, parse_folder_attrib_data) -/

/-- The attribute-read limit attached to a user: either "all" or an
explicit list of readable attribute names. -/
inductive AttrLimit where
  | all : AttrLimit
  | only (keys : List String) : AttrLimit
deriving Repr, DecidableEq

/-- The per-project permission record of a non-manager user (only the
attrib_read component is relevant here). -/
structure PermRecord where
  attrib_read : AttrLimit
deriving Repr, DecidableEq

/-- A user as seen by parse_folder_attrib_data: the manager flag and
the result of user.permissions(project_name) for the queried project
(none when the user has no per-project permission record). -/
structure UserRec where
  is_manager : Bool
  perms : Option PermRecord
deriving Repr, DecidableEq

/-- The attr_limit computation at the top of parse_folder_attrib_data:
managers get "all"; a non-manager without a permission record also gets
"all"; otherwise the record's attrib_read list. -/
def attrLimitOf (user : UserRec) : AttrLimit :=
  if user.is_manager then AttrLimit.all
  else
    match user.perms with
    | none => AttrLimit.all
    | some p => p.attrib_read

/-- The data-merging block of parse_folder_attrib_data:
data = project_attrib or empty, updated with inherited_attrib when not
None, updated with own_attrib when not None. -/
def mergedAttribData (own_attrib inherited_attrib project_attrib : Option Dict) : Dict :=
  let data0 := project_attrib.getD []
  let data1 :=
    match inherited_attrib with
    | some i => dupdate data0 i
    | none => data0
  match own_attrib with
  | some o => dupdate data1 o
  | none => data1

/-- parse_folder_attrib_data: merge the three layers, then delete from
the merged bag every model field that the user's attr_limit does not
allow (no deletion happens when attr_limit is "all").  fields is the
list of the FolderAttribType dataclass fields. -/
def parseFolderAttribData (fields : List String)
    (own_attrib inherited_attrib project_attrib : Option Dict)
    (user : UserRec) : Dict :=
  let data := mergedAttribData own_attrib inherited_attrib project_attrib
  match attrLimitOf user with
  | AttrLimit.all => data
  | AttrLimit.only allowed =>
    data.filter (fun kv => !(fields.contains kv.1) || allowed.contains kv.1)

/-- C8: The access filter over attribute visibility is fail-open: for
every manager, and for every non-manager without a per-project
permission record, attr_limit is "all" and no attribute key is removed
from the effective bag before serialization; only a non-manager with an
explicit permission record can get a restricted set. -/
theorem C8_attrib_filter_fail_open (fields : List String)
    (own_attrib inherited_attrib project_attrib : Option Dict) (user : UserRec) :
    (user.is_manager = true ∨ user.perms = none →
      attrLimitOf user = AttrLimit.all ∧
      parseFolderAttribData fields own_attrib inherited_attrib project_attrib user =
        mergedAttribData own_attrib inherited_attrib project_attrib) ∧
    (parseFolderAttribData fields own_attrib inherited_attrib project_attrib user ≠
        mergedAttribData own_attrib inherited_attrib project_attrib →
      user.is_manager = false ∧ user.perms ≠ none) := by
  have hall : user.is_manager = true ∨ user.perms = none →
      attrLimitOf user = AttrLimit.all := by
    intro h
    unfold attrLimitOf
    cases h with
    | inl hm => rw [hm]; rfl
    | inr hp => cases hm : user.is_manager <;> simp [hp]
  constructor
  · intro h
    refine ⟨hall h, ?_⟩
    unfold parseFolderAttribData
    rw [hall h]
  · intro hne
    by_contra hcon
    rw [not_and_or] at hcon
    have : user.is_manager = true ∨ user.perms = none := by
      cases hcon with
      | inl h1 => exact Or.inl (by revert h1; cases user.is_manager <;> simp)
      | inr h2 => exact Or.inr (by revert h2; cases user.perms <;> simp)
    apply hne
    unfold parseFolderAttribData
    rw [hall this]

/-- Witness for C8: a manager whose (present!) permission record would
restrict reads to nothing still sees the full merged bag. -/
theorem C8_attrib_filter_fail_open_witness :
    (UserRec.mk true (some ⟨AttrLimit.only []⟩)).is_manager = true ∧
    attrLimitOf (UserRec.mk true (some ⟨AttrLimit.only []⟩)) = AttrLimit.all ∧
    parseFolderAttribData ["fps", "x"] (some [("x", 9)]) none
        (some [("fps", 25)]) (UserRec.mk true (some ⟨AttrLimit.only []⟩)) =
      mergedAttribData (some [("x", 9)]) none (some [("fps", 25)]) :=
  ⟨rfl,
    (C8_attrib_filter_fail_open ["fps", "x"] (some [("x", 9)]) none
        (some [("fps", 25)]) (UserRec.mk true (some ⟨AttrLimit.only []⟩))).1 (Or.inl rfl) |>.1,
    (C8_attrib_filter_fail_open ["fps", "x"] (some [("x", 9)]) none
        (some [("fps", 25)]) (UserRec.mk true (some ⟨AttrLimit.only []⟩))).1 (Or.inl rfl) |>.2⟩

/-! ## FolderEntity.save: the attribute bag that is written back
(openpype/entities/folder.py, save) -/

/-- The bag written to the folders row by FolderEntity.save:

  attrib = {};
  for key in own_attrib: if getattr(self.attrib, key) is not None:
    attrib[key] = value. -/
def savedAttrib (ent : FolderEntityState) : Dict :=
  ent.own_attrib.filterMap (fun k => (dget ent.attrib k).map (fun v => (k, v)))

theorem dget_keysFilterMap (A : Dict) (keys : List String) (k : String) :
    dget (keys.filterMap (fun k2 => (dget A k2).map (fun v => (k2, v)))) k =
      if k ∈ keys then dget A k else none := by
  induction keys with
  | nil => simp [dget]
  | cons k0 rest ih =>
    simp only [List.filterMap_cons]
    by_cases hk : k = k0
    · subst hk
      cases h0 : dget A k with
      | none =>
        simp only [Option.map_none']
        rw [ih]
        by_cases hmem : k ∈ rest <;> simp [hmem, h0]
      | some v0 =>
        simp only [Option.map_some']
        simp [dget, h0]
    · cases h0 : dget A k0 with
      | none =>
        simp only [Option.map_none']
        rw [ih]
        simp [List.mem_cons, hk]
      | some v0 =>
        simp only [Option.map_some']
        have hskip : dget ((k0, v0) :: rest.filterMap
            (fun k2 => (dget A k2).map (fun v => (k2, v)))) k =
            dget (rest.filterMap (fun k2 => (dget A k2).map (fun v => (k2, v)))) k := by
          unfold dget
          rw [List.find?_cons]
          have : ((k0, v0).1 == k) = false := by
            simp only [beq_eq_false_iff_ne, ne_eq]
            exact fun hc => hk (hc.symm)
          rw [this]
        rw [hskip, ih]
        simp [List.mem_cons, hk]

theorem mem_keys_iff_dget (own : Dict) (k : String) :
    k ∈ own.map (fun p => p.1) ↔ ∃ v, dget own k = some v := by
  induction own with
  | nil => simp [dget]
  | cons p rest ih =>
    by_cases hk : k = p.1
    · subst hk
      simp [dget, List.find?_cons]
    · have hskip : dget (p :: rest) k = dget rest k := by
        unfold dget
        rw [List.find?_cons]
        have : (p.1 == k) = false := by
          simp only [beq_eq_false_iff_ne, ne_eq]
          exact fun hc => hk (hc.symm)
        rw [this]
      simp only [List.map_cons, List.mem_cons, hk, false_or, hskip]
      exact ih

/-- C9: A folder's stored own attribute bag stays sparse across every
load/save round trip: FolderEntity.save writes back only the keys
recorded in own_attrib whose values are non-None, so for a loaded
folder the written bag coincides (pointwise) with the row's stored
sparse bag, and inherited or project-level values merged into the
effective bag at load time are never persisted. -/
theorem C9_save_keeps_own_attrib_sparse
    (db : DBState) (fid : String) (f : FolderRow) (ent : FolderEntityState)
    (hf : findFolder db fid = some f)
    (h : FolderEntity.load db fid = some ent) :
    (∀ kv ∈ savedAttrib ent, kv.1 ∈ ent.own_attrib) ∧
    (∀ k, dget (savedAttrib ent) k = dget f.attrib k) := by
  obtain ⟨hattr, hown⟩ := FolderEntity.load_fields db fid f ent hf h
  constructor
  · intro kv hkv
    unfold savedAttrib at hkv
    rw [List.mem_filterMap] at hkv
    obtain ⟨a, ha, heq⟩ := hkv
    cases hv : dget ent.attrib a with
    | none => rw [hv] at heq; exact absurd heq (by simp)
    | some v =>
      rw [hv] at heq
      simp only [Option.map_some', Option.some.injEq] at heq
      rw [← heq]
      exact ha
  · intro k
    unfold savedAttrib
    rw [hown, hattr, dget_keysFilterMap]
    by_cases hmem : k ∈ f.attrib.map (fun p => p.1)
    · obtain ⟨v, hv⟩ := (mem_keys_iff_dget f.attrib k).1 hmem
      rw [if_pos hmem, dget_loadedAttrib_own db f k v hv, hv]
    · rw [if_neg hmem]
      cases hv : dget f.attrib k with
      | none => rfl
      | some v => exact absurd ((mem_keys_iff_dget f.attrib k).2 ⟨v, hv⟩) hmem

/-- Witness for C9: in the C1-style sample, the persisted bag equals
the stored sparse bag on an own key (x) and on an inherited-only key
(fps, not persisted). -/
def dbC9 : DBState :=
  { project_attrib := [("fps", 25), ("x", 1)]
    folders :=
      [ { id := "f1", name := "root", attrib := [("x", 7)] }
      , { id := "f2", name := "child", parent_id := some "f1"
          attrib := [("y", 3), ("x", 9)] } ]
    hierarchy := [("f1", "root"), ("f2", "root/child")]
    exported := [{ folder_id := "f1", path := "root", attrib := [("x", 7), ("z", 2)] }] }

def fRowC9 : FolderRow :=
  { id := "f2", name := "child", parent_id := some "f1", attrib := [("y", 3), ("x", 9)] }

def entC9 : FolderEntityState :=
  { id := "f2", name := "child", folder_type := none, parent_id := some "f1"
    thumbnail_id := none
    attrib := dupdate (dupdate dbC9.project_attrib [("x", 7), ("z", 2)]) fRowC9.attrib
    own_attrib := ["y", "x"], path := "root/child", active := true, warned := false }

theorem C9_save_keeps_own_attrib_sparse_witness :
    findFolder dbC9 "f2" = some fRowC9 ∧
    FolderEntity.load dbC9 "f2" = some entC9 ∧
    dget (savedAttrib entC9) "x" = dget fRowC9.attrib "x" ∧
    dget (savedAttrib entC9) "fps" = dget fRowC9.attrib "fps" :=
  ⟨by decide, by decide,
    (C9_save_keeps_own_attrib_sparse dbC9 "f2" fRowC9 entC9 (by decide) (by decide)).2 "x",
    (C9_save_keeps_own_attrib_sparse dbC9 "f2" fRowC9 entC9 (by decide) (by decide)).2 "fps"⟩

/-! ## Error taxonomy and backend errors -/

/-- Errors raised by the Postgres layer (asyncpg exception classes). -/
inductive PGError where
  | uniqueViolation (detail : String)
  | foreignKeyViolation (detail : String)
  | otherError (msg : String)
deriving Repr, DecidableEq

/-- The application-level error taxonomy, plus the two raw Python-level
failure shapes that matter here: an uncaught backend error propagating
to the caller (pgRaw) and a Python KeyError from a record subscript. -/
inductive AppError where
  | notFound (msg : String)
  | forbidden (msg : String)
  | constraintViolation (detail : String)
  | keyError (key : String)
  | typeError (msg : String)
  | pgRaw (e : PGError)
deriving Repr, DecidableEq

/-! ## TaskEntity.load (openpype/entities/task.py)

The task load iterates over asyncpg records whose columns are exactly
the SELECT list of the query; subscripting a record with a column name
that was not selected raises KeyError.  The record is therefore
modelled as an association list of column name to cell value built from
the query's SELECT list, and record subscription as a lookup that fails
with keyError on a missing column. -/

/-- One cell of an asyncpg record row. -/
inductive Cell where
  | s (v : String)
  | d (v : Dict)
  | b (v : Bool)
  | onull
deriving Repr, DecidableEq

/-- Record subscription record[k]: KeyError when the column was not in
the SELECT list. -/
def recGet (r : List (String × Cell)) (k : String) : Except AppError Cell :=
  match r.find? (fun p => p.1 == k) with
  | some p => Except.ok p.2
  | none => Except.error (AppError.keyError k)

/-- The record produced by the task-load query: its SELECT list is
id, name, task_type, folder_id, attrib, data, active, created_at,
updated_at, inherited_attrib -- and nothing else; in particular there
is no parent_id column.  inherited_attrib is the LEFT JOIN of
exported_attributes on t.folder_id = ia.folder_id. -/
def taskRecordOf (db : DBState) (t : TaskRow) : List (String × Cell) :=
  [ ("id", Cell.s t.id)
  , ("name", Cell.s t.name)
  , ("task_type",
      match t.task_type with
      | some v => Cell.s v
      | none => Cell.onull)
  , ("folder_id", Cell.s t.folder_id)
  , ("attrib", Cell.d t.attrib)
  , ("active", Cell.b t.active)
  , ("inherited_attrib",
      match exportedFor db t.folder_id with
      | some e => Cell.d e.attrib
      | none => Cell.onull) ]

/-- The in-memory task entity produced by TaskEntity.load. -/
structure TaskEntityState where
  id : String
  name : String
  task_type : Option String
  folder_id : String
  attrib : Dict
  own_attrib : List String
  active : Bool
deriving Repr, DecidableEq

/-- TaskEntity.load:

  attrib = {};
  if (ia := record inherited_attrib) is not None: attrib |= ia
  elif record parent_id is not None: log a warning       <- KeyError:
      the task query selects folder_id, not parent_id, so this record
      subscript raises
  attrib |= record attrib; own_attrib = keys of record attrib. -/
def TaskEntity.load (db : DBState) (tid : String) : Except AppError TaskEntityState :=
  match db.tasks.find? (fun t => t.id == tid) with
  | none => Except.error (AppError.notFound "Entity not found")
  | some t =>
    let r := taskRecordOf db t
    match recGet r "inherited_attrib" with
    | Except.error e => Except.error e
    | Except.ok (Cell.d i) =>
      Except.ok
        { id := t.id
          name := t.name
          task_type := t.task_type
          folder_id := t.folder_id
          attrib := dupdate (dupdate [] i) t.attrib
          own_attrib := t.attrib.map (fun p => p.1)
          active := t.active }
    | Except.ok Cell.onull =>
      match recGet r "parent_id" with
      | Except.error e => Except.error e
      | Except.ok _ =>
        Except.ok
          { id := t.id
            name := t.name
            task_type := t.task_type
            folder_id := t.folder_id
            attrib := dupdate [] t.attrib
            own_attrib := t.attrib.map (fun p => p.1)
            active := t.active }
    | Except.ok _ => Except.error (AppError.typeError "attrib merge on non-dict")

/-- The database for C5: task t1 sits in folder f1, and the
exported_attributes cache has no row for f1. -/
def dbC5 : DBState :=
  { project_attrib := [("fps", 25)]
    folders := [{ id := "f1", name := "root", attrib := [] }]
    hierarchy := [("f1", "root")]
    exported := []
    tasks := [{ id := "t1", name := "tsk", folder_id := "f1", attrib := [("x", 1)] }] }

/-- The same database with the cache row present. -/
def dbC5ok : DBState :=
  { dbC5 with exported := [{ folder_id := "f1", path := "root", attrib := [("fps", 25)] }] }

/-- C5 (code bug): when the exported-attribute cache has no row for the
task's folder, TaskEntity.load does not log-and-return as the spec
says: it evaluates record parent_id, a column the task query never
selects, and dies with KeyError.  With the cache row present the load
returns the task normally, showing the failure is specific to the
missing-cache branch the spec describes as a logged warning. -/
theorem C5_task_load_missing_cache_raises_keyerror :
    TaskEntity.load dbC5 "t1" = Except.error (AppError.keyError "parent_id") ∧
    TaskEntity.load dbC5ok "t1" = Except.ok
      { id := "t1", name := "tsk", task_type := none, folder_id := "f1"
        attrib := dupdate (dupdate [] [("fps", 25)]) [("x", 1)]
        own_attrib := ["x"], active := true } :=
  ⟨rfl, rfl⟩

/-! ## Constraint-violation translation on save
(openpype/entities/folder.py save, openpype/entities/project.py _save)

The exception flow is modelled by injecting the outcome of each SQL
statement (none = success, some e = the backend raised e) and mirroring
the try/except structure of the source around each statement. -/

/-- FolderEntity.save.  existing = self.exists.  For an existing folder
the DELETE on exported_attributes and the UPDATE on the folders row run
with no try/except around them; for a new folder the INSERT is wrapped
in try/except clauses translating ForeignKeyViolationError and
UniqueViolationError into ConstraintViolationException(e.detail). -/
def FolderEntity.saveErrors (existing : Bool)
    (deleteOut updateOut insertOut : Option PGError) : Except AppError Unit :=
  if existing then
    match deleteOut with
    | some e => Except.error (AppError.pgRaw e)
    | none =>
      match updateOut with
      | some e => Except.error (AppError.pgRaw e)
      | none => Except.ok ()
  else
    match insertOut with
    | some (PGError.foreignKeyViolation d) => Except.error (AppError.constraintViolation d)
    | some (PGError.uniqueViolation d) => Except.error (AppError.constraintViolation d)
    | some e => Except.error (AppError.pgRaw e)
    | none => Except.ok ()

/-- ProjectEntity._save.  For an existing project the UPDATE plus the
aux-table updates are wrapped in a try/except catching only
ForeignKeyViolationError (detail preserved); for a new project the
INSERT catches only UniqueViolationError and raises
ConstraintViolationException with the message "name already exists",
discarding the backend detail string. -/
def ProjectEntity.saveErrors (existing : Bool) (name : String)
    (updateOut insertOut : Option PGError) : Except AppError Unit :=
  if existing then
    match updateOut with
    | some (PGError.foreignKeyViolation d) => Except.error (AppError.constraintViolation d)
    | some e => Except.error (AppError.pgRaw e)
    | none => Except.ok ()
  else
    match insertOut with
    | some (PGError.uniqueViolation _) =>
      Except.error (AppError.constraintViolation (name ++ " already exists"))
    | some e => Except.error (AppError.pgRaw e)
    | none => Except.ok ()

/-- Counterexample to C7 as stated: a uniqueness violation raised by
the UPDATE of an existing folder (e.g. a rename onto a sibling's name)
is not translated at all -- the raw backend error propagates to the
caller. -/
theorem C7_counterexample_update_unique_leaks_raw :
    FolderEntity.saveErrors true none
        (some (PGError.uniqueViolation "folders_name_key duplicate")) none =
      Except.error (AppError.pgRaw (PGError.uniqueViolation "folders_name_key duplicate")) :=
  rfl

/-- C7 (amended): constraint-violation translation is per-branch, not
universal.  A folder INSERT translates both uniqueness and foreign-key
violations into ConstraintViolation carrying the backend detail; a
project UPDATE translates foreign-key violations carrying the detail; a
project INSERT translates uniqueness violations but replaces the detail
with "name already exists"; a uniqueness violation on a folder UPDATE,
a uniqueness violation on a project UPDATE, and a foreign-key violation
on a project INSERT all propagate the raw backend error. -/
theorem C7_constraint_violation_translation (d name : String) :
    FolderEntity.saveErrors false none none (some (PGError.uniqueViolation d)) =
      Except.error (AppError.constraintViolation d) ∧
    FolderEntity.saveErrors false none none (some (PGError.foreignKeyViolation d)) =
      Except.error (AppError.constraintViolation d) ∧
    ProjectEntity.saveErrors true name (some (PGError.foreignKeyViolation d)) none =
      Except.error (AppError.constraintViolation d) ∧
    ProjectEntity.saveErrors false name none (some (PGError.uniqueViolation d)) =
      Except.error (AppError.constraintViolation (name ++ " already exists")) ∧
    FolderEntity.saveErrors true none (some (PGError.uniqueViolation d)) none =
      Except.error (AppError.pgRaw (PGError.uniqueViolation d)) ∧
    ProjectEntity.saveErrors true name (some (PGError.uniqueViolation d)) none =
      Except.error (AppError.pgRaw (PGError.uniqueViolation d)) ∧
    ProjectEntity.saveErrors false name none (some (PGError.foreignKeyViolation d)) =
      Except.error (AppError.pgRaw (PGError.foreignKeyViolation d)) :=
  ⟨rfl, rfl, rfl, rfl, rfl, rfl, rfl⟩

/-! ## Materialized paths

Python path manipulation -- "/".join(p.split("/")[:-1]) -- is modelled
at the character-list level with an explicit split/join pair. -/

/-- "/".join at the character level. -/
def joinSegsL : List (List Char) → List Char
  | [] => []
  | [s] => s
  | s :: rest => s ++ '/' :: joinSegsL rest

/-- Python str.split("/") at the character level: always returns at
least one (possibly empty) segment. -/
def splitCh : List Char → List (List Char)
  | [] => [[]]
  | c :: cs =>
    if c = '/' then [] :: splitCh cs
    else
      match splitCh cs with
      | s :: ss => (c :: s) :: ss
      | [] => [[c]]

/-- "/".join(segs) on strings. -/
def joinPath (segs : List String) : String :=
  String.mk (joinSegsL (segs.map String.toList))

/-- The parent_path computation of FolderEntity.commit:
"/".join(path.split("/")[:-1]). -/
def parentPathOf (p : String) : String :=
  String.mk (joinSegsL ((splitCh p.toList).dropLast))

/-- The SQL predicate path LIKE 'pre%': pre is a string prefix of path.
(Folder paths are assumed to contain no SQL wildcard characters; with a
percent or underscore inside the path LIKE would match even more rows,
never fewer, so the deletions proved below are a lower bound in that
degenerate case.) -/
def likeStartsWith (pre s : String) : Bool :=
  pre.toList.isPrefixOf s.toList

/-! ## The hierarchy materialized view and the cascaded bag -/

/-- Modelled from the spec: the hierarchy materialized view pairs each
folder id with its materialized path, the "/"-joined ancestor names
(the view's SQL definition lives in the schema template, which is not
among the sources).  Computed by walking parent_id links with fuel
bounding the walk. -/
def computeSegs (folders : List FolderRow) : Nat → String → Option (List String)
  | 0, _ => none
  | fuel + 1, fid =>
    match folders.find? (fun f => f.id == fid) with
    | none => none
    | some f =>
      match f.parent_id with
      | none => some [f.name]
      | some pid => (computeSegs folders fuel pid).map (fun segs => segs ++ [f.name])

/-- The materialized path of a folder, when its parent chain resolves. -/
def folderPath (folders : List FolderRow) (fid : String) : Option String :=
  (computeSegs folders folders.length fid).map joinPath

/-- REFRESH MATERIALIZED VIEW CONCURRENTLY hierarchy: recompute the
(id, path) view from the folders table. -/
def refreshHierarchy (db : DBState) : DBState :=
  { db with
    hierarchy := db.folders.filterMap
      (fun f => (folderPath db.folders f.id).map (fun p => (f.id, p))) }

/-- The spec's correctly cascade-merged bag of a folder: project
attributes, overlaid with the parent's cascaded bag for a non-root,
overlaid with the folder's own bag. -/
def cascadedAttrib (folders : List FolderRow) (proj : Dict) : Nat → String → Option Dict
  | 0, _ => none
  | fuel + 1, fid =>
    match folders.find? (fun f => f.id == fid) with
    | none => none
    | some f =>
      match f.parent_id with
      | none => some (dupdate proj f.attrib)
      | some pid =>
        (cascadedAttrib folders proj fuel pid).map
          (fun pe => dupdate (dupdate proj pe) f.attrib)

/-! ## FolderEntity.save on an existing folder (state effect) -/

/-- The state effect of FolderEntity.save for an existing folder:

  DELETE FROM exported_attributes WHERE path LIKE '{self.path}%';
  UPDATE folders SET name, folder_type, parent_id, thumbnail_id,
    attrib (the sparse savedAttrib bag) WHERE id = self.id.

self.path is the path loaded before any parent/name change, so the
deletion keys on the old path. -/
def FolderEntity.saveUpdate (db : DBState) (ent : FolderEntityState) : DBState :=
  { db with
    exported := db.exported.filter (fun e => !(likeStartsWith ent.path e.path))
    folders := db.folders.map (fun f =>
      if f.id == ent.id then
        { f with
          name := ent.name
          folder_type := ent.folder_type
          parent_id := ent.parent_id
          thumbnail_id := ent.thumbnail_id
          attrib := savedAttrib ent }
      else f) }

/-! ## FolderEntity.commit -/

/-- One row of the commit recompute query: hierarchy JOIN folders
(INNER on id) LEFT JOIN exported_attributes e ON
e.folder_id = f.parent_id. -/
structure CommitRow where
  id : String
  path : String
  own_attrib : Dict
  parent_id : Option String
  inherited_attrib : Option Dict
deriving Repr, DecidableEq

def commitRowOf (db : DBState) (hid hpath : String) : Option CommitRow :=
  (db.folders.find? (fun f => f.id == hid)).map (fun f =>
    { id := hid
      path := hpath
      own_attrib := f.attrib
      parent_id := f.parent_id
      inherited_attrib :=
        f.parent_id.bind (fun pid => (exportedFor db pid).map (fun e => e.attrib)) })

/-- The rows of the recompute query before ordering: hierarchy rows
joined to folders, restricted to paths with no exported_attributes row
(WHERE h.path NOT IN (SELECT path FROM exported_attributes)). -/
def pendingRows (db : DBState) : List CommitRow :=
  (db.hierarchy.filterMap (fun h => commitRowOf db h.1 h.2)).filter
    (fun cr => !(db.exported.any (fun e => e.path == cr.path)))

/-- Lexicographic (byte-order) comparison of character lists, the
order ORDER BY path ASC uses; executable by the kernel. -/
def charsLe : List Char → List Char → Bool
  | [], _ => true
  | _ :: _, [] => false
  | a :: as, b :: bs =>
    if a = b then charsLe as bs else decide (a < b)

/-- ORDER BY path ASC comparison on paths. -/
def pathLe (a b : String) : Bool :=
  charsLe a.toList b.toList

/-- Ordered insertion for ORDER BY path ASC. -/
def insertByPath (r : CommitRow) : List CommitRow → List CommitRow
  | [] => [r]
  | x :: xs => if pathLe r.path x.path then r :: x :: xs else x :: insertByPath r xs

def sortByPath : List CommitRow → List CommitRow
  | [] => []
  | x :: xs => insertByPath x (sortByPath xs)

/-- The recompute query's result set: pending rows in ascending path
order. -/
def commitPending (db : DBState) : List CommitRow :=
  sortByPath (pendingRows db)

/-- The per-row base-bag resolution of the commit loop:

  if inherited_attrib is not None: use it
  elif not parent_id: use the project bag
  elif parent_path in cache: use the cache entry
  else: log an error and skip (none). -/
def commitBase (proj : Dict) (cache : List (String × Dict)) (cr : CommitRow) : Option Dict :=
  match cr.inherited_attrib with
  | some i => some i
  | none =>
    if cr.parent_id.isNone then some proj
    else
      match cache.find? (fun c => c.1 == parentPathOf cr.path) with
      | some c => some c.2
      | none => none

/-- The commit recompute loop: walk the ordered result set, resolve
each row's base bag, overlay the folder's own bag ({} |= base |= own),
record the merged bag in the in-run cache and emit the INSERT;
unresolvable rows are logged and skipped, and the loop continues. -/
def commitLoop (proj : Dict) : List CommitRow → List (String × Dict) → List ExportedRow
  | [], _ => []
  | cr :: rest, cache =>
    match commitBase proj cache cr with
    | none => commitLoop proj rest cache
    | some b =>
      { folder_id := cr.id, path := cr.path, attrib := dupdate b cr.own_attrib } ::
        commitLoop proj rest ((cr.path, dupdate b cr.own_attrib) :: cache)

/-- The rows inserted into exported_attributes by one commit. -/
def commitInserted (db : DBState) : List ExportedRow :=
  commitLoop db.project_attrib (commitPending db) []

/-- FolderEntity.commit: DELETE FROM thumbnails WHERE id = self.id;
REFRESH MATERIALIZED VIEW hierarchy; then run the recompute query and
insert one exported_attributes row per resolvable pending path. -/
def FolderEntity.commit (db : DBState) (fid : String) : DBState :=
  let db1 := { db with thumbnails := db.thumbnails.filter (fun t => t != fid) }
  let db2 := refreshHierarchy db1
  { db2 with exported := db2.exported ++ commitInserted db2 }

/-- C10: Every invocation of FolderEntity.commit deletes the row with
the folder's own id from the thumbnails table, regardless of whether
the thumbnail was involved in the change: a thumbnail stored under the
folder's id never survives a save that goes through commit (the delete
runs unconditionally before the hierarchy refresh). -/
theorem C10_commit_always_deletes_own_thumbnail (db : DBState) (fid : String) :
    (FolderEntity.commit db fid).thumbnails =
      db.thumbnails.filter (fun t => t != fid) ∧
    fid ∉ (FolderEntity.commit db fid).thumbnails := by
  refine ⟨rfl, fun hmem => ?_⟩
  have heq : (FolderEntity.commit db fid).thumbnails =
      db.thumbnails.filter (fun t => t != fid) := rfl
  rw [heq] at hmem
  have := List.of_mem_filter hmem
  simp at this

/-! ## The PATCH handler (api/crud_folders/folders.py, update_folder) -/

/-- The patch payload: unset fields are none. -/
structure FolderPatch where
  name : Option String := none
  folder_type : Option String := none
  parent_id : Option String := none
  thumbnail_id : Option String := none
  attrib : Option Dict := none
deriving Repr, DecidableEq

/-- Modelled from the spec: ProjectLevelEntity.patch (entities/core.py
is not among the sources): a generic partial update, unset fields left
untouched; provided attrib keys are set into the bag and recorded as
own keys. -/
def FolderEntityState.patch (ent : FolderEntityState) (p : FolderPatch) : FolderEntityState :=
  { ent with
    name := p.name.getD ent.name
    folder_type :=
      match p.folder_type with
      | some v => some v
      | none => ent.folder_type
    parent_id :=
      match p.parent_id with
      | some v => some v
      | none => ent.parent_id
    thumbnail_id :=
      match p.thumbnail_id with
      | some v => some v
      | none => ent.thumbnail_id
    attrib :=
      match p.attrib with
      | some d2 => dupdate ent.attrib d2
      | none => ent.attrib
    own_attrib :=
      match p.attrib with
      | some d2 => ent.own_attrib ++ d2.map (fun q => q.1)
      | none => ent.own_attrib }

/-- FolderEntity.get_versions: SELECT v.id FROM versions v JOIN subsets
s ON s.id = v.subset_id WHERE s.folder_id = fid. -/
def FolderEntity.getVersions (db : DBState) (fid : String) : List String :=
  db.versions.filterMap (fun v =>
    match db.subsets.find? (fun s => s.id == v.subset_id) with
    | some s => if s.folder_id == fid then some v.id else none
    | none => none)

/-- has_versions = not not (await folder.get_versions(conn)). -/
def hasVersionsB (db : DBState) (fid : String) : Bool :=
  !(FolderEntity.getVersions db fid).isEmpty

/-- The per-key test of the handler's lock loop: the patch is a
structural change when the posted value is set and differs from the
current value ((new_value is None) or (old_value == new_value) skips). -/
def structChanged (old newv : Option String) : Bool :=
  match newv with
  | none => false
  | some v => !(old == some v)

/-- Whether the patch changes any of name, folder_type, parent_id. -/
def structAny (ent : FolderEntityState) (p : FolderPatch) : Bool :=
  structChanged (some ent.name) p.name ||
  structChanged ent.folder_type p.folder_type ||
  structChanged ent.parent_id p.parent_id

/-- update_folder: load the folder FOR UPDATE inside a transaction,
check the version lock key by key (name, folder_type, parent_id),
then patch, save and commit.  The access check is delegated to the
access-control collaborator and modelled for an authorized user.  A
raised ForbiddenException aborts the transaction, so an error result
carries no state change. -/
def updateFolder (db : DBState) (fid : String) (p : FolderPatch) : Except AppError DBState :=
  match FolderEntity.load db fid with
  | none => Except.error (AppError.notFound "Entity not found")
  | some ent =>
    if hasVersionsB db fid && structChanged (some ent.name) p.name then
      Except.error (AppError.forbidden "Cannot update name folder with published versions")
    else if hasVersionsB db fid && structChanged ent.folder_type p.folder_type then
      Except.error (AppError.forbidden "Cannot update folder_type folder with published versions")
    else if hasVersionsB db fid && structChanged ent.parent_id p.parent_id then
      Except.error (AppError.forbidden "Cannot update parent_id folder with published versions")
    else
      Except.ok (FolderEntity.commit (FolderEntity.saveUpdate db (ent.patch p)) fid)

/-- C2: For every folder with at least one version under any of its
subsets, a patch that changes name, folder_type or parent_id to a
different value fails with Forbidden (and, the transaction aborting,
leaves the folder unchanged), while a patch that only changes the
attribute bag, or sets those fields to their current values, still
succeeds; the lock holds for every state in which versions are counted,
so it never reverts while any version exists. -/
theorem C2_version_lock_on_structural_fields
    (db : DBState) (fid : String) (ent : FolderEntityState) (p : FolderPatch)
    (h : FolderEntity.load db fid = some ent)
    (hv : (FolderEntity.getVersions db fid).isEmpty = false) :
    (structAny ent p = true →
      ∃ m, updateFolder db fid p = Except.error (AppError.forbidden m)) ∧
    (structAny ent p = false →
      updateFolder db fid p =
        Except.ok (FolderEntity.commit (FolderEntity.saveUpdate db (ent.patch p)) fid)) := by
  have hvv : hasVersionsB db fid = true := by
    unfold hasVersionsB
    rw [hv]
    rfl
  unfold updateFolder
  rw [h]
  constructor
  · intro hs
    unfold structAny at hs
    cases h1 : structChanged (some ent.name) p.name with
    | true => exact ⟨"Cannot update name folder with published versions", by simp [hvv, h1]⟩
    | false =>
      cases h2 : structChanged ent.folder_type p.folder_type with
      | true => exact ⟨"Cannot update folder_type folder with published versions", by simp [hvv, h1, h2]⟩
      | false =>
        cases h3 : structChanged ent.parent_id p.parent_id with
        | true => exact ⟨"Cannot update parent_id folder with published versions", by simp [hvv, h1, h2, h3]⟩
        | false => rw [h1, h2, h3] at hs; simp at hs
  · intro hs
    unfold structAny at hs
    rw [Bool.or_eq_false_iff, Bool.or_eq_false_iff] at hs
    obtain ⟨⟨h1, h2⟩, h3⟩ := hs
    simp [h1, h2, h3]

/-- Witness database for C2: root folder f1 with one subset s1 and one
version v1. -/
def dbC2 : DBState :=
  { project_attrib := [("fps", 25)]
    folders := [{ id := "f1", name := "assets", folder_type := some "Asset", attrib := [("x", 1)] }]
    hierarchy := [("f1", "assets")]
    exported := [{ folder_id := "f1", path := "assets", attrib := [("fps", 25), ("x", 1)] }]
    subsets := [{ id := "s1", folder_id := "f1" }]
    versions := [{ id := "v1", subset_id := "s1" }] }

def entC2 : FolderEntityState :=
  { id := "f1", name := "assets", folder_type := some "Asset", parent_id := none
    thumbnail_id := none
    attrib := dupdate dbC2.project_attrib [("x", 1)]
    own_attrib := ["x"], path := "assets", active := true, warned := false }

theorem C2_version_lock_on_structural_fields_witness :
    (∃ m, updateFolder dbC2 "f1" { name := some "renamed" } =
      Except.error (AppError.forbidden m)) ∧
    updateFolder dbC2 "f1" { attrib := some [("x", 5)] } =
      Except.ok (FolderEntity.commit
        (FolderEntity.saveUpdate dbC2 (entC2.patch { attrib := some [("x", 5)] })) "f1") :=
  ⟨(C2_version_lock_on_structural_fields dbC2 "f1" entC2 { name := some "renamed" }
      (by decide) (by decide)).1 (by decide),
   (C2_version_lock_on_structural_fields dbC2 "f1" entC2 { attrib := some [("x", 5)] }
      (by decide) (by decide)).2 (by decide)⟩

/-! ## Split/join lemmas for materialized paths -/

theorem joinSegsL_cons (s : List Char) (rest : List (List Char)) (h : rest ≠ []) :
    joinSegsL (s :: rest) = s ++ '/' :: joinSegsL rest := by
  cases rest with
  | nil => exact absurd rfl h
  | cons a t => rfl

theorem splitCh_ne_nil (l : List Char) : splitCh l ≠ [] := by
  induction l with
  | nil => simp [splitCh]
  | cons c cs ih =>
    simp only [splitCh]
    by_cases h : c = '/'
    · simp [h]
    · rw [if_neg h]
      cases hcs : splitCh cs with
      | nil => simp
      | cons s ss => simp

theorem joinSegsL_splitCh (l : List Char) : joinSegsL (splitCh l) = l := by
  induction l with
  | nil => rfl
  | cons c cs ih =>
    simp only [splitCh]
    by_cases h : c = '/'
    · rw [if_pos h, joinSegsL_cons [] (splitCh cs) (splitCh_ne_nil cs), ih, h]
      rfl
    · rw [if_neg h]
      cases hcs : splitCh cs with
      | nil => exact absurd hcs (splitCh_ne_nil cs)
      | cons s ss =>
        rw [hcs] at ih
        cases ss with
        | nil =>
          have hs : s = cs := ih
          simp [joinSegsL, hs]
        | cons s2 ss2 =>
          have hj : joinSegsL ((c :: s) :: s2 :: ss2) =
              (c :: s) ++ '/' :: joinSegsL (s2 :: ss2) := rfl
          have hj2 : joinSegsL (s :: s2 :: ss2) = s ++ '/' :: joinSegsL (s2 :: ss2) := rfl
          rw [hj2] at ih
          rw [hj]
          simp only [List.cons_append, List.cons.injEq, true_and]
          exact ih

theorem splitCh_no_sep (x : List Char) (h : ('/' : Char) ∉ x) : splitCh x = [x] := by
  induction x with
  | nil => rfl
  | cons c cs ih =>
    have hc : c ≠ '/' := fun hc => h (hc ▸ List.mem_cons_self c cs)
    have hcs : ('/' : Char) ∉ cs := fun hm => h (List.mem_cons_of_mem c hm)
    simp only [splitCh, if_neg hc, ih hcs]

theorem splitCh_append (x t : List Char) (h : ('/' : Char) ∉ x) :
    splitCh (x ++ '/' :: t) = x :: splitCh t := by
  induction x with
  | nil => simp [splitCh]
  | cons c cs ih =>
    have hc : c ≠ '/' := fun hc => h (hc ▸ List.mem_cons_self c cs)
    have hcs : ('/' : Char) ∉ cs := fun hm => h (List.mem_cons_of_mem c hm)
    simp only [List.cons_append, splitCh, if_neg hc, List.append_eq, ih hcs]

theorem joinSegsL_concat (init : List (List Char)) (x : List Char) (h : init ≠ []) :
    joinSegsL (init ++ [x]) = joinSegsL init ++ '/' :: x := by
  induction init with
  | nil => exact absurd rfl h
  | cons s rest ih =>
    cases rest with
    | nil => rfl
    | cons s2 rest2 =>
      have hne : s2 :: rest2 ≠ [] := by simp
      have hne2 : (s2 :: rest2) ++ [x] ≠ [] := by simp
      rw [List.cons_append, joinSegsL_cons s ((s2 :: rest2) ++ [x]) hne2,
        joinSegsL_cons s (s2 :: rest2) hne, ih hne]
      simp

theorem splitCh_joinSegsL (segs : List (List Char)) (hne : segs ≠ [])
    (h : ∀ s ∈ segs, ('/' : Char) ∉ s) :
    splitCh (joinSegsL segs) = segs := by
  induction segs with
  | nil => exact absurd rfl hne
  | cons s rest ih =>
    cases rest with
    | nil => exact splitCh_no_sep s (h s (List.mem_cons_self s []))
    | cons s2 rest2 =>
      have hrest : s2 :: rest2 ≠ [] := by simp
      rw [joinSegsL_cons s (s2 :: rest2) hrest,
        splitCh_append s (joinSegsL (s2 :: rest2)) (h s (List.mem_cons_self s _)),
        ih hrest (fun x hx => h x (List.mem_cons_of_mem s hx))]

theorem toList_mk (l : List Char) : (String.mk l).toList = l := rfl

theorem toList_joinPath (segs : List String) :
    (joinPath segs).toList = joinSegsL (segs.map String.toList) := rfl

theorem joinPath_inj (a b : List String)
    (ha1 : a ≠ []) (ha2 : ∀ s ∈ a, ('/' : Char) ∉ s.toList)
    (hb1 : b ≠ []) (hb2 : ∀ s ∈ b, ('/' : Char) ∉ s.toList)
    (h : joinPath a = joinPath b) : a = b := by
  have hla : splitCh (joinPath a).toList = a.map String.toList := by
    rw [toList_joinPath]
    exact splitCh_joinSegsL _ (by simpa using ha1)
      (by intro s hs; rw [List.mem_map] at hs; obtain ⟨x, hx, rfl⟩ := hs; exact ha2 x hx)
  have hlb : splitCh (joinPath b).toList = b.map String.toList := by
    rw [toList_joinPath]
    exact splitCh_joinSegsL _ (by simpa using hb1)
      (by intro s hs; rw [List.mem_map] at hs; obtain ⟨x, hx, rfl⟩ := hs; exact hb2 x hx)
  have : a.map String.toList = b.map String.toList := by
    rw [← hla, ← hlb, h]
  exact List.map_injective_iff.mpr (fun x y hxy => String.toList_inj.mp hxy) this

theorem parentPathOf_joinPath (segs : List String) (n : String)
    (hsegs : ∀ s ∈ segs, ('/' : Char) ∉ s.toList)
    (hn : ('/' : Char) ∉ n.toList) (_hne : segs ≠ []) :
    parentPathOf (joinPath (segs ++ [n])) = joinPath segs := by
  unfold parentPathOf
  rw [toList_joinPath, List.map_append, List.map_singleton]
  rw [splitCh_joinSegsL (segs.map String.toList ++ [n.toList]) (by simp)
    (by
      intro s hs
      rw [List.mem_append] at hs
      cases hs with
      | inl hs =>
        rw [List.mem_map] at hs
        obtain ⟨x, hx, rfl⟩ := hs
        exact hsegs x hx
      | inr hs =>
        rw [List.mem_singleton] at hs
        exact hs ▸ hn)]
  rw [List.dropLast_concat]
  rfl

theorem list_lt_append (l : List Char) (c : Char) (t : List Char) : l < l ++ c :: t := by
  show List.Lex (fun a b => a < b) l (l ++ c :: t)
  induction l with
  | nil => exact List.Lex.nil
  | cons a as ih => exact List.Lex.cons ih

theorem string_ne_toList (p : String) (h : p ≠ "") : p.toList ≠ [] := by
  intro hc
  exact h (String.toList_inj.mp (by rw [hc]; rfl))

theorem parentPathOf_lt (p : String) (h : p ≠ "") : parentPathOf p < p := by
  have hsegs_ne := splitCh_ne_nil p.toList
  have hjoin : joinSegsL (splitCh p.toList) = p.toList := joinSegsL_splitCh _
  cases hd : (splitCh p.toList).dropLast with
  | nil =>
    have hpar : parentPathOf p = "" := by
      unfold parentPathOf
      rw [hd]
      rfl
    rw [hpar, String.lt_iff_toList_lt]
    show ([] : List Char) < p.toList
    cases hp : p.toList with
    | nil => exact absurd hp (string_ne_toList p h)
    | cons a t => exact List.nil_lt_cons a t
  | cons s0 rest0 =>
    have hlast := List.dropLast_append_getLast hsegs_ne
    have hsplit : joinSegsL (splitCh p.toList) =
        joinSegsL (splitCh p.toList).dropLast ++ '/' ::
          (splitCh p.toList).getLast hsegs_ne := by
      conv_lhs => rw [← hlast]
      exact joinSegsL_concat _ _ (by rw [hd]; simp)
    rw [String.lt_iff_toList_lt]
    show joinSegsL (splitCh p.toList).dropLast < p.toList
    conv_rhs => rw [← hjoin, hsplit]
    exact list_lt_append _ _ _

theorem joinPath_ne_empty (segs : List String) (hne : segs ≠ [])
    (h : ∀ s ∈ segs, s ≠ "") : joinPath segs ≠ "" := by
  intro hc
  have : (joinPath segs).toList = [] := by rw [hc]; rfl
  rw [toList_joinPath] at this
  cases segs with
  | nil => exact hne rfl
  | cons s rest =>
    cases rest with
    | nil =>
      have hs : s.toList = [] := this
      exact h s (List.mem_cons_self s []) (String.toList_inj.mp hs)
    | cons s2 rest2 =>
      have hj : joinSegsL ((s :: s2 :: rest2).map String.toList) =
          s.toList ++ '/' :: joinSegsL ((s2 :: rest2).map String.toList) := rfl
      rw [hj] at this
      simp at this

/-! ## Extensional dictionary equality, executable -/

/-- Executable pointwise equality of two bags. -/
def dictEquiv (a b : Dict) : Bool :=
  (a.map (fun p => p.1) ++ b.map (fun p => p.1)).all (fun k => dget a k == dget b k)

theorem dictEquiv_iff (a b : Dict) : dictEquiv a b = true ↔ ∀ k, dget a k = dget b k := by
  constructor
  · intro h k
    rw [dictEquiv, List.all_eq_true] at h
    by_cases hka : k ∈ a.map (fun p => p.1)
    · exact beq_iff_eq.mp (h k (List.mem_append_left _ hka))
    · by_cases hkb : k ∈ b.map (fun p => p.1)
      · exact beq_iff_eq.mp (h k (List.mem_append_right _ hkb))
      · have hna : dget a k = none := by
          cases hv : dget a k with
          | none => rfl
          | some v => exact absurd ((mem_keys_iff_dget a k).2 ⟨v, hv⟩) hka
        have hnb : dget b k = none := by
          cases hv : dget b k with
          | none => rfl
          | some v => exact absurd ((mem_keys_iff_dget b k).2 ⟨v, hv⟩) hkb
        rw [hna, hnb]
  · intro h
    rw [dictEquiv, List.all_eq_true]
    intro k _
    exact beq_iff_eq.mpr (h k)

/-! ## Order lemmas for the path comparison -/

theorem lex_cons_ne_iff {a b : Char} (bs as : List Char) (h : a ≠ b) :
    List.Lex (fun x y : Char => x < y) (b :: bs) (a :: as) ↔ b < a := by
  constructor
  · intro hl
    cases hl with
    | cons h2 => exact absurd rfl h
    | rel h2 => exact h2
  · intro hl
    exact List.Lex.rel hl

theorem charsLe_iff_not_lt (a b : List Char) :
    charsLe a b = true ↔ ¬ List.Lex (fun x y : Char => x < y) b a := by
  induction a generalizing b with
  | nil =>
    simp only [charsLe]
    exact ⟨fun _ hl => List.Lex.not_nil_right _ _ hl, fun _ => by trivial⟩
  | cons a as ih =>
    cases b with
    | nil =>
      simp only [charsLe]
      constructor
      · intro hc
        exact absurd hc (by simp)
      · intro hl
        exact absurd List.Lex.nil hl
    | cons b bs =>
      simp only [charsLe]
      by_cases hab : a = b
      · subst hab
        rw [if_pos rfl, ih bs]
        constructor
        · intro hn hl
          exact hn (List.Lex.cons_iff.mp hl)
        · intro hn hl
          exact hn (List.Lex.cons hl)
      · rw [if_neg hab]
        rw [lex_cons_ne_iff bs as hab]
        constructor
        · intro hd hl
          exact absurd (decide_eq_true_eq.mp hd) (asymm hl)
        · intro hn
          rw [decide_eq_true_eq]
          rcases lt_trichotomy a b with hlt | heq | hgt
          · exact hlt
          · exact absurd heq hab
          · exact absurd hgt hn

theorem pathLe_iff_not_lt (a b : String) : pathLe a b = true ↔ ¬ b < a := by
  unfold pathLe
  rw [charsLe_iff_not_lt]
  exact not_congr (Iff.symm String.lt_iff_toList_lt)

theorem pathLe_trans {a b c : String} (hab : pathLe a b = true) (hbc : pathLe b c = true) :
    pathLe a c = true := by
  rw [pathLe_iff_not_lt] at *
  intro hca
  exact hab (lt_of_le_of_lt (le_of_not_lt hbc) hca)

theorem pathLe_of_not (a b : String) (h : ¬ pathLe a b = true) : pathLe b a = true := by
  rw [pathLe_iff_not_lt] at *
  intro hab
  exact h fun hba => asymm hab hba

theorem pathLe_lt_absurd {a b : String} (hle : pathLe a b = true) (hlt : b < a) : False := by
  rw [pathLe_iff_not_lt] at hle
  exact hle hlt

/-! ## Sorting lemmas -/

theorem mem_insertByPath (r x : CommitRow) (l : List CommitRow) :
    x ∈ insertByPath r l ↔ x = r ∨ x ∈ l := by
  induction l with
  | nil => simp [insertByPath]
  | cons y ys ih =>
    simp only [insertByPath]
    by_cases h : pathLe r.path y.path = true
    · rw [if_pos h]
      simp [List.mem_cons]
    · rw [if_neg h]
      simp only [List.mem_cons, ih]
      tauto

theorem insertByPath_perm (r : CommitRow) (l : List CommitRow) :
    List.Perm (insertByPath r l) (r :: l) := by
  induction l with
  | nil => exact List.Perm.refl _
  | cons y ys ih =>
    simp only [insertByPath]
    by_cases h : pathLe r.path y.path = true
    · rw [if_pos h]
    · rw [if_neg h]
      exact (List.Perm.cons y ih).trans (List.Perm.swap r y ys)

theorem sortByPath_perm (l : List CommitRow) : List.Perm (sortByPath l) l := by
  induction l with
  | nil => exact List.Perm.refl _
  | cons x xs ih =>
    exact (insertByPath_perm x (sortByPath xs)).trans (List.Perm.cons x ih)

theorem mem_sortByPath (x : CommitRow) (l : List CommitRow) :
    x ∈ sortByPath l ↔ x ∈ l :=
  (sortByPath_perm l).mem_iff

theorem pairwise_insertByPath (r : CommitRow) (l : List CommitRow)
    (h : l.Pairwise (fun a b => pathLe a.path b.path = true)) :
    (insertByPath r l).Pairwise (fun a b => pathLe a.path b.path = true) := by
  induction l with
  | nil => simp [insertByPath]
  | cons y ys ih =>
    rw [List.pairwise_cons] at h
    obtain ⟨hy, hys⟩ := h
    simp only [insertByPath]
    by_cases hle : pathLe r.path y.path = true
    · rw [if_pos hle]
      rw [List.pairwise_cons]
      refine ⟨?_, List.pairwise_cons.mpr ⟨hy, hys⟩⟩
      intro z hz
      rcases List.mem_cons.mp hz with rfl | hz2
      · exact hle
      · exact pathLe_trans hle (hy z hz2)
    · rw [if_neg hle]
      rw [List.pairwise_cons]
      refine ⟨?_, ih hys⟩
      intro z hz
      rcases (mem_insertByPath r z ys).mp hz with rfl | hz2
      · exact pathLe_of_not _ _ hle
      · exact hy z hz2

theorem sortByPath_sorted (l : List CommitRow) :
    (sortByPath l).Pairwise (fun a b => pathLe a.path b.path = true) := by
  induction l with
  | nil => simp [sortByPath]
  | cons x xs ih => exact pairwise_insertByPath x (sortByPath xs) ih

/-! ## Inversion lemmas for the commit base resolution -/

theorem commitBase_eq_some (proj : Dict) (cache : List (String × Dict))
    (cr : CommitRow) (b : Dict) (h : commitBase proj cache cr = some b) :
    cr.inherited_attrib = some b ∨
    (cr.inherited_attrib = none ∧ cr.parent_id = none ∧ b = proj) ∨
    (cr.inherited_attrib = none ∧ cr.parent_id ≠ none ∧
      ∃ c, cache.find? (fun c2 => c2.1 == parentPathOf cr.path) = some c ∧
        c.1 = parentPathOf cr.path ∧ c.2 = b) := by
  unfold commitBase at h
  cases hia : cr.inherited_attrib with
  | some i =>
    rw [hia] at h
    have hb : some i = some b := h
    exact Or.inl hb
  | none =>
    rw [hia] at h
    cases hp : cr.parent_id with
    | none =>
      rw [hp] at h
      have hb : some proj = some b := h
      exact Or.inr (Or.inl ⟨rfl, rfl, (Option.some.inj hb).symm⟩)
    | some pid =>
      rw [hp] at h
      cases hc : List.find? (fun c2 => c2.1 == parentPathOf cr.path) cache with
      | none =>
        rw [hc] at h
        have hb : (none : Option Dict) = some b := h
        exact absurd hb (by simp)
      | some c =>
        rw [hc] at h
        have hb : some c.2 = some b := h
        have hpc := List.find?_some hc
        exact Or.inr (Or.inr ⟨rfl, by simp, c, rfl,
          beq_iff_eq.mp hpc, Option.some.inj hb⟩)

theorem commitBase_eq_none (proj : Dict) (cache : List (String × Dict))
    (cr : CommitRow) (h : commitBase proj cache cr = none) :
    cr.inherited_attrib = none ∧ cr.parent_id ≠ none ∧
      cache.find? (fun c2 => c2.1 == parentPathOf cr.path) = none := by
  unfold commitBase at h
  cases hia : cr.inherited_attrib with
  | some i =>
    rw [hia] at h
    have hb : some i = (none : Option Dict) := h
    exact absurd hb (by simp)
  | none =>
    rw [hia] at h
    cases hp : cr.parent_id with
    | none =>
      rw [hp] at h
      have hb : some proj = (none : Option Dict) := h
      exact absurd hb (by simp)
    | some pid =>
      rw [hp] at h
      cases hc : List.find? (fun c2 => c2.1 == parentPathOf cr.path) cache with
      | none => exact ⟨rfl, by simp, rfl⟩
      | some c =>
        rw [hc] at h
        have hb : some c.2 = (none : Option Dict) := h
        exact absurd hb (by simp)

theorem commitBase_inherited (proj : Dict) (cache : List (String × Dict))
    (cr : CommitRow) (i : Dict) (h : cr.inherited_attrib = some i) :
    commitBase proj cache cr = some i := by
  unfold commitBase
  rw [h]

theorem commitBase_root (proj : Dict) (cache : List (String × Dict))
    (cr : CommitRow) (h1 : cr.inherited_attrib = none) (h2 : cr.parent_id = none) :
    commitBase proj cache cr = some proj := by
  unfold commitBase
  rw [h1, h2]
  rfl

theorem commitBase_cache (proj : Dict) (cache : List (String × Dict))
    (cr : CommitRow) (pid : String) (c : String × Dict)
    (h1 : cr.inherited_attrib = none) (h2 : cr.parent_id = some pid)
    (hc : cache.find? (fun c2 => c2.1 == parentPathOf cr.path) = some c) :
    commitBase proj cache cr = some c.2 := by
  unfold commitBase
  rw [h1, h2, hc]
  rfl

/-! ## Characterizing the rows the commit loop inserts -/

theorem commitLoop_mem_path (proj : Dict) (todo : List CommitRow)
    (cache : List (String × Dict)) (r : ExportedRow)
    (h : r ∈ commitLoop proj todo cache) :
    ∃ cr ∈ todo, r.path = cr.path ∧ r.folder_id = cr.id := by
  induction todo generalizing cache with
  | nil => simp [commitLoop] at h
  | cons cr0 rest ih =>
    rw [commitLoop] at h
    cases hb : commitBase proj cache cr0 with
    | none =>
      rw [hb] at h
      obtain ⟨cr, hcr, h1, h2⟩ := ih _ h
      exact ⟨cr, List.mem_cons_of_mem _ hcr, h1, h2⟩
    | some b =>
      rw [hb] at h
      rcases List.mem_cons.mp h with rfl | h2
      · exact ⟨cr0, List.mem_cons_self _ _, rfl, rfl⟩
      · obtain ⟨cr, hcr, h1, h2⟩ := ih _ h2
        exact ⟨cr, List.mem_cons_of_mem _ hcr, h1, h2⟩

theorem commitLoop_map_path_sublist (proj : Dict) (todo : List CommitRow)
    (cache : List (String × Dict)) :
    ((commitLoop proj todo cache).map (fun r => r.path)).Sublist
      (todo.map (fun cr => cr.path)) := by
  induction todo generalizing cache with
  | nil => simp [commitLoop]
  | cons cr0 rest ih =>
    rw [commitLoop]
    cases hb : commitBase proj cache cr0 with
    | none => exact (ih _).cons _
    | some b => exact (ih _).cons₂ _

theorem commitLoop_pairwise (proj : Dict) (todo : List CommitRow)
    (cache : List (String × Dict))
    (h : todo.Pairwise (fun a b => pathLe a.path b.path = true)) :
    (commitLoop proj todo cache).Pairwise
      (fun a b : ExportedRow => pathLe a.path b.path = true) := by
  induction todo generalizing cache with
  | nil => simp [commitLoop]
  | cons cr0 rest ih =>
    rw [List.pairwise_cons] at h
    obtain ⟨h0, hrest⟩ := h
    rw [commitLoop]
    cases hb : commitBase proj cache cr0 with
    | none => exact ih _ hrest
    | some b =>
      rw [List.pairwise_cons]
      refine ⟨?_, ih _ hrest⟩
      intro r hr
      obtain ⟨cr, hcr, h1, _⟩ := commitLoop_mem_path proj rest _ r hr
      show pathLe cr0.path r.path = true
      rw [h1]
      exact h0 cr hcr

/-- The base-bag provenance of every inserted row: the parent's
surviving exported_attributes row, the project bag for a root, or a
cache entry -- which, starting from an empty cache, is always a row
inserted earlier in the same run. -/
theorem commitLoop_row_spec (proj : Dict) (todo : List CommitRow)
    (cache : List (String × Dict)) (r : ExportedRow)
    (h : r ∈ commitLoop proj todo cache) :
    ∃ cr ∈ todo, r.folder_id = cr.id ∧ r.path = cr.path ∧
      ∃ b, r.attrib = dupdate b cr.own_attrib ∧
        (cr.inherited_attrib = some b ∨
         (cr.inherited_attrib = none ∧ cr.parent_id = none ∧ b = proj) ∨
         (cr.inherited_attrib = none ∧ cr.parent_id ≠ none ∧
          ((∃ c ∈ cache, c.1 = parentPathOf cr.path ∧ c.2 = b) ∨
           (∃ r2 ∈ commitLoop proj todo cache,
             r2.path = parentPathOf cr.path ∧ r2.attrib = b)))) := by
  induction todo generalizing cache with
  | nil => simp [commitLoop] at h
  | cons cr0 rest ih =>
    rw [commitLoop] at h
    cases hb : commitBase proj cache cr0 with
    | none =>
      rw [hb] at h
      obtain ⟨cr, hcr, h1, h2, b, hval, hprov⟩ := ih _ h
      refine ⟨cr, List.mem_cons_of_mem _ hcr, h1, h2, b, hval, ?_⟩
      rcases hprov with hp | hp | ⟨hp1, hp2, hp3⟩
      · exact Or.inl hp
      · exact Or.inr (Or.inl hp)
      · refine Or.inr (Or.inr ⟨hp1, hp2, ?_⟩)
        rcases hp3 with hc | ⟨r2, hr2, hq1, hq2⟩
        · exact Or.inl hc
        · refine Or.inr ⟨r2, ?_, hq1, hq2⟩
          rw [commitLoop, hb]
          exact hr2
    | some b0 =>
      rw [hb] at h
      rcases List.mem_cons.mp h with rfl | h2
      · refine ⟨cr0, List.mem_cons_self _ _, rfl, rfl, b0, rfl, ?_⟩
        rcases commitBase_eq_some proj cache cr0 b0 hb with hp | hp | ⟨hp1, hp2, c, hc, hc1, hc2⟩
        · exact Or.inl hp
        · exact Or.inr (Or.inl hp)
        · exact Or.inr (Or.inr ⟨hp1, hp2,
            Or.inl ⟨c, List.mem_of_find?_eq_some hc, hc1, hc2⟩⟩)
      · obtain ⟨cr, hcr, h1, h2b, b, hval, hprov⟩ := ih _ h2
        refine ⟨cr, List.mem_cons_of_mem _ hcr, h1, h2b, b, hval, ?_⟩
        rcases hprov with hp | hp | ⟨hp1, hp2, hp3⟩
        · exact Or.inl hp
        · exact Or.inr (Or.inl hp)
        · refine Or.inr (Or.inr ⟨hp1, hp2, ?_⟩)
          rcases hp3 with ⟨c, hcmem, hc1, hc2⟩ | ⟨r2, hr2, hq1, hq2⟩
          · rcases List.mem_cons.mp hcmem with rfl | hcmem2
            · refine Or.inr ⟨⟨cr0.id, cr0.path, dupdate b0 cr0.own_attrib⟩, ?_, hc1, hc2⟩
              rw [commitLoop, hb]
              exact List.mem_cons_self _ _
            · exact Or.inl ⟨c, hcmem2, hc1, hc2⟩
          · refine Or.inr ⟨r2, ?_, hq1, hq2⟩
            rw [commitLoop, hb]
            exact List.mem_cons_of_mem _ hr2

/-! ## C4: the cache recompute step -/

/-- Counterexample database for C4: project carries fps = 25; the
parent's surviving cache row (folder 1, path r) lacks the fps key
(reachable: a project-attribute update never touches per-project
caches); the child (folder 2, path r/c) has no cache row and no own
fps. -/
def dbC4x : DBState :=
  { project_attrib := [("fps", 25)]
    folders :=
      [ { id := "1", name := "r", attrib := [] }
      , { id := "2", name := "c", parent_id := some "1", attrib := [("y", 3)] } ]
    hierarchy := [("1", "r")]
    exported := [{ folder_id := "1", path := "r", attrib := [("x", 1)] }] }

/-- Counterexample to C4 as stated: the recompute bases a non-root row
on the parent's cached bag alone -- it does not overlay the project
attributes first -- so the row inserted for r/c lacks fps even though
the project defines it; the claimed formula (project, overlaid by
parent bag, overlaid by own) would give fps = 25. -/
theorem C4_counterexample_no_project_base :
    ((FolderEntity.commit dbC4x "2").exported.find? (fun e => e.path == "r/c")).map
        (fun e => dget e.attrib "fps") = some none ∧
    dget dbC4x.project_attrib "fps" = some 25 ∧
    (exportedFor dbC4x "1").map (fun e => dget e.attrib "fps") = some none ∧
    specEffectiveLayer dbC4x.project_attrib ((exportedFor dbC4x "1").map (fun e => e.attrib))
        [("y", 3)] "fps" = some 25 := by
  decide

/-- C4 (amended): the recompute processes pending paths in ascending
path order (parents before children), inserts at most one row per
pending path, and computes each row as its resolved base bag overlaid
by the folder's own bag, where the base is the parent's surviving
exported_attributes row when one exists (with no fresh project-
attribute underlay -- this is where the original claim fails), the
project attributes alone for a root, and otherwise the bag of the row
inserted earlier in the same run for the parent path.  This coincides
with the claimed project-based formula exactly when the parent's bag
already carries every project key. -/
theorem C4_commit_recompute_order_and_values (db : DBState)
    (hnodup : ((commitPending db).map (fun cr => cr.path)).Nodup) :
    ((commitInserted db).Pairwise (fun a b => pathLe a.path b.path = true)) ∧
    ((commitInserted db).map (fun r => r.path)).Nodup ∧
    (∀ r ∈ commitInserted db, r.path ∈ (commitPending db).map (fun cr => cr.path)) ∧
    (∀ r ∈ commitInserted db, ∃ cr ∈ commitPending db,
      r.folder_id = cr.id ∧ r.path = cr.path ∧
      ∃ b, r.attrib = dupdate b cr.own_attrib ∧
        (cr.inherited_attrib = some b ∨
         (cr.inherited_attrib = none ∧ cr.parent_id = none ∧ b = db.project_attrib) ∨
         (cr.inherited_attrib = none ∧ cr.parent_id ≠ none ∧
          ∃ r2 ∈ commitInserted db, r2.path = parentPathOf cr.path ∧ r2.attrib = b))) := by
  refine ⟨?_, ?_, ?_, ?_⟩
  · exact commitLoop_pairwise db.project_attrib (commitPending db) [] (sortByPath_sorted _)
  · exact (commitLoop_map_path_sublist db.project_attrib (commitPending db) []).nodup hnodup
  · intro r hr
    exact (commitLoop_map_path_sublist db.project_attrib (commitPending db) []).mem
      (List.mem_map_of_mem (fun r2 => r2.path) hr)
  · intro r hr
    obtain ⟨cr, hcr, h1, h2, b, hval, hprov⟩ :=
      commitLoop_row_spec db.project_attrib (commitPending db) [] r hr
    refine ⟨cr, hcr, h1, h2, b, hval, ?_⟩
    rcases hprov with hp | hp | ⟨hp1, hp2, hp3⟩
    · exact Or.inl hp
    · exact Or.inr (Or.inl hp)
    · refine Or.inr (Or.inr ⟨hp1, hp2, ?_⟩)
      rcases hp3 with ⟨c, hcmem, _⟩ | hr2
      · exact absurd hcmem (List.not_mem_nil c)
      · exact hr2

/-- Witness database for C4: one surviving root row, two pending
children. -/
def dbC4w : DBState :=
  { project_attrib := [("fps", 25)]
    folders :=
      [ { id := "1", name := "r", attrib := [("x", 1)] }
      , { id := "2", name := "c", parent_id := some "1", attrib := [("y", 3)] }
      , { id := "3", name := "d", parent_id := some "2", attrib := [] } ]
    hierarchy := [("1", "r"), ("2", "r/c"), ("3", "r/c/d")]
    exported := [{ folder_id := "1", path := "r", attrib := [("fps", 25), ("x", 1)] }] }

theorem C4_commit_recompute_order_and_values_witness :
    ((commitPending dbC4w).map (fun cr => cr.path)).Nodup ∧
    ((commitInserted dbC4w).Pairwise (fun a b => pathLe a.path b.path = true)) ∧
    ((commitInserted dbC4w).map (fun r => r.path)).Nodup :=
  ⟨by decide,
   (C4_commit_recompute_order_and_values dbC4w (by decide)).1,
   (C4_commit_recompute_order_and_values dbC4w (by decide)).2.1⟩

/-! ## C6: per-path fault containment in the recompute -/

theorem commitLoop_no_skip (proj : Dict) :
    ∀ (todo : List CommitRow) (cache : List (String × Dict)),
    todo.Pairwise (fun a b => pathLe a.path b.path = true) →
    (∀ cr ∈ todo, cr.path ≠ "") →
    ∀ cr ∈ todo,
      (cr.inherited_attrib.isSome = true ∨ cr.parent_id = none ∨
        (∃ c ∈ cache, c.1 = parentPathOf cr.path) ∨
        parentPathOf cr.path ∈ (commitLoop proj todo cache).map (fun r => r.path)) →
      cr.path ∈ (commitLoop proj todo cache).map (fun r => r.path) := by
  intro todo
  induction todo with
  | nil =>
    intro cache _ _ cr hcr
    simp at hcr
  | cons cr0 rest ih =>
    intro cache hsort hne cr hcr hres
    rw [List.pairwise_cons] at hsort
    obtain ⟨h0, hrest⟩ := hsort
    rcases List.mem_cons.mp hcr with rfl | hcr2
    · cases hb : commitBase proj cache cr with
      | some b =>
        rw [commitLoop, hb, List.map_cons]
        exact List.mem_cons_self _ _
      | none =>
        exfalso
        obtain ⟨hia, hpar, hfind⟩ := commitBase_eq_none proj cache cr hb
        rcases hres with h1 | h1 | h1 | h1
        · rw [hia] at h1
          simp at h1
        · exact hpar h1
        · obtain ⟨c, hcmem, hc1⟩ := h1
          have hnone := List.find?_eq_none.mp hfind c hcmem
          rw [hc1] at hnone
          simp at hnone
        · rw [commitLoop, hb] at h1
          rw [List.mem_map] at h1
          obtain ⟨r2, hr2, hr2p⟩ := h1
          obtain ⟨cr2, hcr2m, hp1, _⟩ := commitLoop_mem_path proj rest cache r2 hr2
          have hle := h0 cr2 hcr2m
          have hlt : parentPathOf cr.path < cr.path :=
            parentPathOf_lt _ (hne cr (List.mem_cons_self _ _))
          have hcp : cr2.path = parentPathOf cr.path := by rw [← hp1, hr2p]
          rw [hcp] at hle
          exact pathLe_lt_absurd hle hlt
    · cases hb : commitBase proj cache cr0 with
      | none =>
        rw [commitLoop, hb]
        refine ih cache hrest (fun c hc => hne c (List.mem_cons_of_mem _ hc)) cr hcr2 ?_
        rw [commitLoop, hb] at hres
        exact hres
      | some b =>
        rw [commitLoop, hb, List.map_cons]
        refine List.mem_cons_of_mem _ ?_
        refine ih ((cr0.path, dupdate b cr0.own_attrib) :: cache) hrest
          (fun c hc => hne c (List.mem_cons_of_mem _ hc)) cr hcr2 ?_
        rcases hres with h1 | h1 | h1 | h1
        · exact Or.inl h1
        · exact Or.inr (Or.inl h1)
        · obtain ⟨c, hcm, hc1⟩ := h1
          exact Or.inr (Or.inr (Or.inl ⟨c, List.mem_cons_of_mem _ hcm, hc1⟩))
        · rw [commitLoop, hb, List.map_cons] at h1
          rcases List.mem_cons.mp h1 with heq | hmem
          · exact Or.inr (Or.inr (Or.inl
              ⟨(cr0.path, dupdate b cr0.own_attrib), List.mem_cons_self _ _, heq.symm⟩))
          · exact Or.inr (Or.inr (Or.inr hmem))

/-- C6: A pending path whose parent bag cannot be resolved -- no
surviving exported_attributes row for the parent, the path is not a
root, and no row for the parent path was inserted earlier in the run --
is logged and skipped (no row is inserted for it), and the recompute
continues: a pending path is inserted exactly when its parent is
resolvable (surviving row, root, or inserted parent row). -/
theorem C6_commit_recompute_skip_and_continue (db : DBState)
    (hnodup : ((commitPending db).map (fun cr => cr.path)).Nodup)
    (hne : ∀ cr ∈ commitPending db, cr.path ≠ "") :
    ∀ cr ∈ commitPending db,
      (cr.path ∈ (commitInserted db).map (fun r => r.path) ↔
        (cr.inherited_attrib.isSome = true ∨ cr.parent_id = none ∨
          parentPathOf cr.path ∈ (commitInserted db).map (fun r => r.path))) := by
  intro cr hcr
  constructor
  · intro hmem
    rw [List.mem_map] at hmem
    obtain ⟨r, hr, hrp⟩ := hmem
    obtain ⟨cr2, hcr2, h1, h2, b, hval, hprov⟩ :=
      commitLoop_row_spec db.project_attrib (commitPending db) [] r hr
    have hceq : cr2 = cr :=
      List.inj_on_of_nodup_map hnodup hcr2 hcr (by rw [← h2, hrp])
    subst hceq
    rcases hprov with hp | hp | ⟨hp1, hp2, hp3⟩
    · rw [hp]
      exact Or.inl rfl
    · exact Or.inr (Or.inl hp.2.1)
    · rcases hp3 with ⟨c, hcm, _⟩ | ⟨r2, hr2, hq1, _⟩
      · exact absurd hcm (List.not_mem_nil c)
      · exact Or.inr (Or.inr (List.mem_map.mpr ⟨r2, hr2, hq1⟩))
  · intro hres
    refine commitLoop_no_skip db.project_attrib (commitPending db) []
      (sortByPath_sorted _) hne cr hcr ?_
    rcases hres with h | h | h
    · exact Or.inl h
    · exact Or.inr (Or.inl h)
    · exact Or.inr (Or.inr (Or.inr h))

/-- Witness database for C6: the hierarchy view row for the parent is
missing, so the child's pending row has no resolvable parent bag and is
skipped, while a root pending row is still inserted. -/
def dbC6w : DBState :=
  { project_attrib := [("fps", 25)]
    folders :=
      [ { id := "1", name := "r", attrib := [] }
      , { id := "2", name := "c", parent_id := some "1", attrib := [("y", 3)] } ]
    hierarchy := [("2", "r/c")]
    exported := [] }

def crC6 : CommitRow :=
  { id := "2", path := "r/c", own_attrib := [("y", 3)], parent_id := some "1"
    inherited_attrib := none }

theorem C6_commit_recompute_skip_and_continue_witness :
    ((commitPending dbC6w).map (fun cr => cr.path)).Nodup ∧
    (∀ cr ∈ commitPending dbC6w, cr.path ≠ "") ∧
    crC6 ∈ commitPending dbC6w ∧
    (crC6.path ∈ (commitInserted dbC6w).map (fun r => r.path) ↔
      (crC6.inherited_attrib.isSome = true ∨ crC6.parent_id = none ∨
        parentPathOf crC6.path ∈ (commitInserted dbC6w).map (fun r => r.path))) :=
  ⟨by decide, by decide, by decide,
    C6_commit_recompute_skip_and_continue dbC6w (by decide) (by decide) crC6 (by decide)⟩

/-! ## C3 infrastructure: chain lemmas for paths and cascaded bags -/

/-- The path segments of a folder at the standard fuel. -/
def segsOf (db : DBState) (fid : String) : Option (List String) :=
  computeSegs db.folders db.folders.length fid

/-- The cascaded bag of a folder at the standard fuel. -/
def cascOf (db : DBState) (fid : String) : Option Dict :=
  cascadedAttrib db.folders db.project_attrib db.folders.length fid

theorem computeSegs_mono (folders : List FolderRow) :
    ∀ (m n : Nat) (fid : String) (s : List String), m ≤ n →
    computeSegs folders m fid = some s → computeSegs folders n fid = some s := by
  intro m
  induction m with
  | zero => intro n fid s _ h; exact absurd h (by simp [computeSegs])
  | succ m ih =>
    intro n fid s hmn h
    cases n with
    | zero => exact absurd hmn (by simp)
    | succ n =>
      cases hf : folders.find? (fun f => f.id == fid) with
      | none => simp only [computeSegs, hf] at h; exact absurd h (by simp)
      | some f =>
        simp only [computeSegs, hf] at h ⊢
        cases hp : f.parent_id with
        | none => simp only [hp] at h ⊢; exact h
        | some pid =>
          simp only [hp] at h ⊢
          cases hrec : computeSegs folders m pid with
          | none => simp only [hrec] at h; exact absurd h (by simp)
          | some psegs =>
            simp only [hrec] at h
            rw [ih n pid psegs (Nat.le_of_succ_le_succ hmn) hrec]
            exact h

theorem cascadedAttrib_mono (folders : List FolderRow) (proj : Dict) :
    ∀ (m n : Nat) (fid : String) (c : Dict), m ≤ n →
    cascadedAttrib folders proj m fid = some c →
    cascadedAttrib folders proj n fid = some c := by
  intro m
  induction m with
  | zero => intro n fid c _ h; exact absurd h (by simp [cascadedAttrib])
  | succ m ih =>
    intro n fid c hmn h
    cases n with
    | zero => exact absurd hmn (by simp)
    | succ n =>
      cases hf : folders.find? (fun f => f.id == fid) with
      | none => simp only [cascadedAttrib, hf] at h; exact absurd h (by simp)
      | some f =>
        simp only [cascadedAttrib, hf] at h ⊢
        cases hp : f.parent_id with
        | none => simp only [hp] at h ⊢; exact h
        | some pid =>
          simp only [hp] at h ⊢
          cases hrec : cascadedAttrib folders proj m pid with
          | none => simp only [hrec] at h; exact absurd h (by simp)
          | some pc =>
            simp only [hrec] at h
            rw [ih n pid pc (Nat.le_of_succ_le_succ hmn) hrec]
            exact h

theorem cascadedAttrib_isSome_of_segs (folders : List FolderRow) (proj : Dict) :
    ∀ (fuel : Nat) (fid : String) (segs : List String),
    computeSegs folders fuel fid = some segs →
    ∃ c, cascadedAttrib folders proj fuel fid = some c := by
  intro fuel
  induction fuel with
  | zero => intro fid segs h; exact absurd h (by simp [computeSegs])
  | succ fuel ih =>
    intro fid segs h
    cases hf : folders.find? (fun f => f.id == fid) with
    | none => simp only [computeSegs, hf] at h; exact absurd h (by simp)
    | some f =>
      simp only [computeSegs, hf] at h
      simp only [cascadedAttrib, hf]
      cases hp : f.parent_id with
      | none => simp only [hp]; exact ⟨_, rfl⟩
      | some pid =>
        simp only [hp] at h ⊢
        cases hrec : computeSegs folders fuel pid with
        | none => simp only [hrec] at h; exact absurd h (by simp)
        | some psegs =>
          obtain ⟨pc, hpc⟩ := ih pid psegs hrec
          rw [hpc]
          exact ⟨_, rfl⟩

theorem computeSegs_names (folders : List FolderRow) :
    ∀ (fuel : Nat) (fid : String) (segs : List String),
    computeSegs folders fuel fid = some segs →
    ∀ s ∈ segs, ∃ f ∈ folders, s = f.name := by
  intro fuel
  induction fuel with
  | zero => intro fid segs h; exact absurd h (by simp [computeSegs])
  | succ fuel ih =>
    intro fid segs h s hs
    cases hf : folders.find? (fun f => f.id == fid) with
    | none => simp only [computeSegs, hf] at h; exact absurd h (by simp)
    | some f =>
      simp only [computeSegs, hf] at h
      cases hp : f.parent_id with
      | none =>
        simp only [hp] at h
        have hsegs : segs = [f.name] := (Option.some.inj h).symm
        subst hsegs
        rw [List.mem_singleton] at hs
        exact ⟨f, List.mem_of_find?_eq_some hf, hs⟩
      | some pid =>
        simp only [hp] at h
        cases hrec : computeSegs folders fuel pid with
        | none => simp only [hrec] at h; exact absurd h (by simp)
        | some psegs =>
          simp only [hrec, Option.map_some'] at h
          have hsegs : segs = psegs ++ [f.name] := (Option.some.inj h).symm
          subst hsegs
          rcases List.mem_append.mp hs with hs2 | hs2
          · exact ih pid psegs hrec s hs2
          · rw [List.mem_singleton] at hs2
            exact ⟨f, List.mem_of_find?_eq_some hf, hs2⟩

theorem computeSegs_ne_nil (folders : List FolderRow) (fuel : Nat) (fid : String)
    (segs : List String) (h : computeSegs folders fuel fid = some segs) : segs ≠ [] := by
  cases fuel with
  | zero => exact absurd h (by simp [computeSegs])
  | succ fuel =>
    cases hf : folders.find? (fun f => f.id == fid) with
    | none => simp only [computeSegs, hf] at h; exact absurd h (by simp)
    | some f =>
      simp only [computeSegs, hf] at h
      cases hp : f.parent_id with
      | none =>
        simp only [hp] at h
        rw [← Option.some.inj h]
        simp
      | some pid =>
        simp only [hp] at h
        cases hrec : computeSegs folders fuel pid with
        | none => simp only [hrec] at h; exact absurd h (by simp)
        | some psegs =>
          simp only [hrec, Option.map_some'] at h
          rw [← Option.some.inj h]
          simp

theorem computeSegs_parent (folders : List FolderRow) (fuel : Nat) (fid : String)
    (f : FolderRow) (pid : String) (segs : List String)
    (hfind : folders.find? (fun g => g.id == fid) = some f)
    (hp : f.parent_id = some pid)
    (h : computeSegs folders fuel fid = some segs) :
    ∃ m psegs, fuel = m + 1 ∧ computeSegs folders m pid = some psegs ∧
      segs = psegs ++ [f.name] := by
  cases fuel with
  | zero => exact absurd h (by simp [computeSegs])
  | succ m =>
    simp only [computeSegs, hfind, hp] at h
    cases hrec : computeSegs folders m pid with
    | none => simp only [hrec] at h; exact absurd h (by simp)
    | some psegs =>
      simp only [hrec, Option.map_some'] at h
      exact ⟨m, psegs, rfl, hrec, (Option.some.inj h).symm⟩

theorem computeSegs_find (folders : List FolderRow) (fuel : Nat) (fid : String)
    (segs : List String) (h : computeSegs folders fuel fid = some segs) :
    ∃ g, folders.find? (fun g2 => g2.id == fid) = some g ∧ g ∈ folders ∧ g.id = fid := by
  cases fuel with
  | zero => exact absurd h (by simp [computeSegs])
  | succ m =>
    cases hf : folders.find? (fun g2 => g2.id == fid) with
    | none =>
      simp only [computeSegs, hf] at h
      exact absurd h (by simp)
    | some g =>
      have h1 := List.find?_some hf
      exact ⟨g, rfl, List.mem_of_find?_eq_some hf, beq_iff_eq.mp h1⟩

theorem find_by_id_nodup (folders : List FolderRow)
    (hnodup : (folders.map (fun f => f.id)).Nodup) (f : FolderRow) (hf : f ∈ folders) :
    folders.find? (fun g => g.id == f.id) = some f := by
  induction folders with
  | nil => exact absurd hf (List.not_mem_nil f)
  | cons g rest ih =>
    rw [List.map_cons, List.nodup_cons] at hnodup
    obtain ⟨hg, hrest⟩ := hnodup
    by_cases heq : g.id = f.id
    · have hfg : f = g := by
        rcases List.mem_cons.mp hf with rfl | hf2
        · rfl
        · exact absurd (heq ▸ List.mem_map_of_mem (fun x => x.id) hf2) hg
      subst hfg
      exact List.find?_cons_of_pos _ (by simp)
    · rw [List.find?_cons_of_neg _ (by simp [heq])]
      rcases List.mem_cons.mp hf with rfl | hf2
      · exact absurd rfl heq
      · exact ih hrest hf2

theorem folders_id_unique (folders : List FolderRow)
    (hnodup : (folders.map (fun f => f.id)).Nodup) (f g : FolderRow)
    (hf : f ∈ folders) (hg : g ∈ folders) (h : f.id = g.id) : f = g :=
  List.inj_on_of_nodup_map hnodup hf hg h

theorem cascadedAttrib_none_proj (folders : List FolderRow) (proj : Dict)
    (fuel : Nat) (fid : String) (c : Dict)
    (h : cascadedAttrib folders proj fuel fid = some c) (k : String)
    (hc : dget c k = none) : dget proj k = none := by
  cases fuel with
  | zero => exact absurd h (by simp [cascadedAttrib])
  | succ m =>
    cases hf : folders.find? (fun f => f.id == fid) with
    | none => simp only [cascadedAttrib, hf] at h; exact absurd h (by simp)
    | some f =>
      simp only [cascadedAttrib, hf] at h
      cases hp : f.parent_id with
      | none =>
        simp only [hp] at h
        have hcv : c = dupdate proj f.attrib := (Option.some.inj h).symm
        rw [hcv, dget_dupdate] at hc
        cases h1 : dget f.attrib k with
        | some v => rw [h1] at hc; exact absurd hc (by simp [optOr])
        | none => rw [h1] at hc; exact hc
      | some pid =>
        simp only [hp] at h
        cases hrec : cascadedAttrib folders proj m pid with
        | none => simp only [hrec] at h; exact absurd h (by simp)
        | some pc =>
          simp only [hrec, Option.map_some'] at h
          have hcv : c = dupdate (dupdate proj pc) f.attrib := (Option.some.inj h).symm
          rw [hcv, dget_dupdate, dget_dupdate] at hc
          cases h1 : dget f.attrib k with
          | some v => rw [h1] at hc; exact absurd hc (by simp [optOr])
          | none =>
            rw [h1] at hc
            cases h2 : dget pc k with
            | some v => rw [h2] at hc; exact absurd hc (by simp [optOr])
            | none => rw [h2] at hc; exact hc

/-- The key value identity: basing a row on a bag pointwise equal to
the parent's cascaded bag gives the parent-cascade-overlaid-by-own
value, no project underlay needed, because a cascaded bag already
carries every project key. -/
theorem dupdate_casc_eq (proj pc own i : Dict)
    (hiq : ∀ k, dget i k = dget pc k)
    (hnp : ∀ k, dget pc k = none → dget proj k = none) :
    ∀ k, dget (dupdate i own) k = dget (dupdate (dupdate proj pc) own) k := by
  intro k
  rw [dget_dupdate, dget_dupdate, dget_dupdate, hiq k]
  cases h1 : dget own k with
  | some v => rfl
  | none =>
    cases h2 : dget pc k with
    | some v => rfl
    | none => simp [optOr, hnp k h2]

theorem forall2_mem_right {α β : Type} {R : α → β → Prop} :
    ∀ {l1 : List α} {l2 : List β}, List.Forall₂ R l1 l2 →
    ∀ b ∈ l2, ∃ a ∈ l1, R a b := by
  intro l1 l2 h
  induction h with
  | nil => intro b hb; exact absurd hb (List.not_mem_nil b)
  | cons hr _ ih =>
    intro b hb
    rcases List.mem_cons.mp hb with rfl | hb2
    · exact ⟨_, List.mem_cons_self _ _, hr⟩
    · obtain ⟨a, ha, har⟩ := ih b hb2
      exact ⟨a, List.mem_cons_of_mem _ ha, har⟩

theorem forall2_mem_left {α β : Type} {R : α → β → Prop} :
    ∀ {l1 : List α} {l2 : List β}, List.Forall₂ R l1 l2 →
    ∀ a ∈ l1, ∃ b ∈ l2, R a b := by
  intro l1 l2 h
  induction h with
  | nil => intro a ha; exact absurd ha (List.not_mem_nil a)
  | cons hr _ ih =>
    intro a ha
    rcases List.mem_cons.mp ha with rfl | ha2
    · exact ⟨_, List.mem_cons_self _ _, hr⟩
    · obtain ⟨b, hb, hbr⟩ := ih a ha2
      exact ⟨b, List.mem_cons_of_mem _ hb, hbr⟩

/-! ## Well-formedness of a commit-input state -/

/-- A commit-query row is consistent with the snapshot: it joins a real
folder row and carries that folder's materialized path. -/
def RowOk (db : DBState) (cr : CommitRow) : Prop :=
  ∃ f ∈ db.folders, cr.id = f.id ∧ cr.own_attrib = f.attrib ∧
    cr.parent_id = f.parent_id ∧
    cr.inherited_attrib =
      f.parent_id.bind (fun pid => (exportedFor db pid).map (fun e => e.attrib)) ∧
    ∃ segs, segsOf db f.id = some segs ∧ cr.path = joinPath segs

/-- An in-run cache entry holds some folder's path with its correctly
cascaded bag. -/
def CacheOk (db : DBState) (c : String × Dict) : Prop :=
  ∃ f ∈ db.folders, (∃ segs, segsOf db f.id = some segs ∧ c.1 = joinPath segs) ∧
    ∃ d2, cascOf db f.id = some d2 ∧ ∀ k, dget c.2 k = dget d2 k

/-- Well-formedness of the database state a commit runs on: folder ids
are unique, names are nonempty and slash-free, every parent chain
resolves (the tree is acyclic and parents exist), every surviving
exported_attributes row belongs to a folder, holds its path and its
correctly cascaded bag, exported paths are unique, and distinct folders
have distinct materialized paths. -/
structure CommitWF (db : DBState) : Prop where
  ids_nodup : (db.folders.map (fun f => f.id)).Nodup
  names_ok : ∀ f ∈ db.folders, f.name ≠ "" ∧ ('/' : Char) ∉ f.name.toList
  chains : ∀ f ∈ db.folders, (segsOf db f.id).isSome = true
  exported_ok : ∀ e ∈ db.exported, ∃ f ∈ db.folders, e.folder_id = f.id ∧
    (segsOf db f.id).map joinPath = some e.path ∧
    (cascOf db f.id).map (fun c => dictEquiv e.attrib c) = some true
  exported_nodup : (db.exported.map (fun e => e.path)).Nodup
  path_inj : ∀ f ∈ db.folders, ∀ g ∈ db.folders,
    segsOf db f.id = segsOf db g.id → f.id = g.id

theorem cascOf_root (db : DBState) (f : FolderRow) (hf : f ∈ db.folders)
    (hnodup : (db.folders.map (fun g => g.id)).Nodup) (hp : f.parent_id = none) :
    cascOf db f.id = some (dupdate db.project_attrib f.attrib) := by
  have hfind := find_by_id_nodup db.folders hnodup f hf
  unfold cascOf
  cases hlen : db.folders.length with
  | zero =>
    rw [List.length_eq_zero] at hlen
    rw [hlen] at hf
    exact absurd hf (List.not_mem_nil f)
  | succ m => simp only [cascadedAttrib, hfind, hp]

/-- All the facts the loop proof needs about one non-root folder. -/
theorem nonroot_facts (db : DBState) (wf : CommitWF db) (f : FolderRow)
    (hf : f ∈ db.folders) (pid : String) (hp : f.parent_id = some pid)
    (segs : List String) (hsegs : segsOf db f.id = some segs) :
    ∃ psegs pc0,
      segsOf db pid = some psegs ∧
      segs = psegs ++ [f.name] ∧
      cascOf db pid = some pc0 ∧
      cascOf db f.id = some (dupdate (dupdate db.project_attrib pc0) f.attrib) ∧
      parentPathOf (joinPath segs) = joinPath psegs ∧
      psegs ≠ [] ∧
      (∀ s ∈ psegs, ('/' : Char) ∉ s.toList) ∧
      (∃ g ∈ db.folders, g.id = pid) := by
  have hfind := find_by_id_nodup db.folders wf.ids_nodup f hf
  obtain ⟨m, psegs, hm, hrecm, hsegseq⟩ :=
    computeSegs_parent db.folders db.folders.length f.id f pid segs hfind hp hsegs
  obtain ⟨g, hgfind, hgmem, hgid⟩ := computeSegs_find db.folders m pid psegs hrecm
  obtain ⟨pc0, hpc0⟩ :=
    cascadedAttrib_isSome_of_segs db.folders db.project_attrib m pid psegs hrecm
  have hmle : m ≤ db.folders.length := by rw [hm]; exact Nat.le_succ m
  have hsegsp : segsOf db pid = some psegs :=
    computeSegs_mono db.folders m db.folders.length pid psegs hmle hrecm
  have hpcLen : cascOf db pid = some pc0 :=
    cascadedAttrib_mono db.folders db.project_attrib m db.folders.length pid pc0 hmle hpc0
  have hpslash : ∀ s ∈ psegs, ('/' : Char) ∉ s.toList := by
    intro s hs
    obtain ⟨f2, hf2, rfl⟩ := computeSegs_names db.folders m pid psegs hrecm s hs
    exact (wf.names_ok f2 hf2).2
  have hpne : psegs ≠ [] := computeSegs_ne_nil db.folders m pid psegs hrecm
  refine ⟨psegs, pc0, hsegsp, hsegseq, hpcLen, ?_, ?_, hpne, hpslash, g, hgmem, hgid⟩
  · unfold cascOf
    rw [hm]
    simp only [cascadedAttrib, hfind, hp, hpc0, Option.map_some']
  · rw [hsegseq]
    exact parentPathOf_joinPath psegs f.name hpslash (wf.names_ok f hf).2 hpne

theorem path_ne_empty_of_segs (db : DBState) (wf : CommitWF db) (fid : String)
    (segs : List String) (hsegs : segsOf db fid = some segs) :
    joinPath segs ≠ "" := by
  refine joinPath_ne_empty segs
    (computeSegs_ne_nil db.folders db.folders.length fid segs hsegs) ?_
  intro s hs
  obtain ⟨f2, hf2, rfl⟩ :=
    computeSegs_names db.folders db.folders.length fid segs hsegs s hs
  exact (wf.names_ok f2 hf2).1

/-- The master induction: on a well-formed state, with a correct cache
and resolvable parents, the loop inserts one row per pending row, each
carrying the correctly cascaded bag. -/
theorem commitLoop_wf (db : DBState) (wf : CommitWF db) :
    ∀ (todo : List CommitRow) (cache : List (String × Dict)),
    (∀ cr ∈ todo, RowOk db cr) →
    (∀ c ∈ cache, CacheOk db c) →
    todo.Pairwise (fun a b => pathLe a.path b.path = true) →
    (∀ cr ∈ todo, cr.inherited_attrib = none → cr.parent_id ≠ none →
      (∃ c ∈ cache, c.1 = parentPathOf cr.path) ∨
      (∃ cr2 ∈ todo, cr2.path = parentPathOf cr.path)) →
    List.Forall₂ (fun (cr : CommitRow) (r : ExportedRow) =>
        r.folder_id = cr.id ∧ r.path = cr.path ∧
        ∃ c, cascOf db cr.id = some c ∧ ∀ k, dget r.attrib k = dget c k)
      todo (commitLoop db.project_attrib todo cache) := by
  intro todo
  induction todo with
  | nil =>
    intro cache _ _ _ _
    exact List.Forall₂.nil
  | cons cr0 rest ih =>
    intro cache hrows hcache hsort hres
    rw [List.pairwise_cons] at hsort
    obtain ⟨h0, hrest⟩ := hsort
    obtain ⟨f, hf, hid, hown, hpar, hia, segs, hsegs, hpath⟩ :=
      hrows cr0 (List.mem_cons_self _ _)
    have hkey : ∃ b, commitBase db.project_attrib cache cr0 = some b ∧
        ∃ c, cascOf db cr0.id = some c ∧
          ∀ k, dget (dupdate b cr0.own_attrib) k = dget c k := by
      cases hp : f.parent_id with
      | none =>
        have hia2 : cr0.inherited_attrib = none := by rw [hia, hp]; rfl
        refine ⟨db.project_attrib,
          commitBase_root _ _ _ hia2 (hpar.trans hp), ?_⟩
        refine ⟨dupdate db.project_attrib f.attrib, ?_, ?_⟩
        · rw [hid]
          exact cascOf_root db f hf wf.ids_nodup hp
        · intro k
          rw [hown]
      | some pid =>
        obtain ⟨psegs, pc0, hsegsp, hsegseq, hpcLen, hcascf, hppeq, hpne, hpslash,
          g, hgmem, hgid⟩ := nonroot_facts db wf f hf pid hp segs hsegs
        have hppath : parentPathOf cr0.path = joinPath psegs := by
          rw [hpath]
          exact hppeq
        have hnppc : ∀ k, dget pc0 k = none → dget db.project_attrib k = none := by
          intro k hk
          exact cascadedAttrib_none_proj db.folders db.project_attrib
            db.folders.length pid pc0 hpcLen k hk
        cases hia2 : exportedFor db pid with
        | some e =>
          have hia3 : cr0.inherited_attrib = some e.attrib := by
            rw [hia, hp]
            simp [hia2]
          have hia2f : db.exported.find? (fun e2 => e2.folder_id == pid) = some e := hia2
          have hemem : e ∈ db.exported := List.mem_of_find?_eq_some hia2f
          have heid0 := List.find?_some hia2f
          have heid : e.folder_id = pid := beq_iff_eq.mp heid0
          obtain ⟨f2, hf2mem, hfid2, _, hequiv⟩ := wf.exported_ok e hemem
          have hf2pid : f2.id = pid := by rw [← hfid2, heid]
          have hcascf2 : cascOf db f2.id = some pc0 := by rw [hf2pid]; exact hpcLen
          have hdeq : dictEquiv e.attrib pc0 = true := by
            rw [hcascf2] at hequiv
            simpa using hequiv
          have hptw : ∀ k, dget e.attrib k = dget pc0 k := (dictEquiv_iff _ _).mp hdeq
          refine ⟨e.attrib, commitBase_inherited _ _ _ _ hia3,
            dupdate (dupdate db.project_attrib pc0) f.attrib, ?_, ?_⟩
          · rw [hid]
            exact hcascf
          · intro k
            rw [hown]
            exact dupdate_casc_eq db.project_attrib pc0 f.attrib e.attrib hptw hnppc k
        | none =>
          have hia3 : cr0.inherited_attrib = none := by
            rw [hia, hp]
            simp [hia2]
          have hpar3 : cr0.parent_id ≠ none := by
            rw [hpar, hp]
            simp
          have hne0 : cr0.path ≠ "" := by
            rw [hpath]
            exact path_ne_empty_of_segs db wf f.id segs hsegs
          rcases hres cr0 (List.mem_cons_self _ _) hia3 hpar3 with
            ⟨c0, hc0mem, hc0key⟩ | ⟨cr2, hcr2mem, hcr2p⟩
          · have hfinds : (cache.find? (fun c2 => c2.1 == parentPathOf cr0.path)).isSome := by
              rw [List.find?_isSome]
              exact ⟨c0, hc0mem, beq_iff_eq.mpr hc0key⟩
            obtain ⟨c', hfind'⟩ := Option.isSome_iff_exists.mp hfinds
            have hfind'p := List.find?_some hfind'
            have hc'key : c'.1 = parentPathOf cr0.path := beq_iff_eq.mp hfind'p
            obtain ⟨f2, hf2, ⟨segs2, hsegs2, hc'path⟩, d2, hd2, hptw⟩ :=
              hcache c' (List.mem_of_find?_eq_some hfind')
            have hs2slash : ∀ s ∈ segs2, ('/' : Char) ∉ s.toList := by
              intro s hs
              obtain ⟨f3, hf3, rfl⟩ := computeSegs_names db.folders db.folders.length
                f2.id segs2 hsegs2 s hs
              exact (wf.names_ok f3 hf3).2
            have hs2ne : segs2 ≠ [] :=
              computeSegs_ne_nil db.folders db.folders.length f2.id segs2 hsegs2
            have hsegs2eq : segs2 = psegs := by
              refine joinPath_inj segs2 psegs hs2ne hs2slash hpne hpslash ?_
              rw [← hc'path, hc'key, hppath]
            have hsegsf2 : segsOf db f2.id = segsOf db g.id := by
              rw [hsegs2, hsegs2eq, hgid, hsegsp]
            have hf2id : f2.id = pid := by
              rw [wf.path_inj f2 hf2 g hgmem hsegsf2, hgid]
            have hd2pc : d2 = pc0 := by
              have : cascOf db f2.id = some pc0 := by rw [hf2id]; exact hpcLen
              rw [hd2] at this
              exact Option.some.inj this
            refine ⟨c'.2, commitBase_cache _ _ _ pid c' hia3 (hpar.trans hp) hfind',
              dupdate (dupdate db.project_attrib pc0) f.attrib, ?_, ?_⟩
            · rw [hid]
              exact hcascf
            · intro k
              rw [hown]
              refine dupdate_casc_eq db.project_attrib pc0 f.attrib c'.2 ?_ hnppc k
              intro k2
              rw [hptw k2, hd2pc]
          · exfalso
            have hlt : parentPathOf cr0.path < cr0.path := parentPathOf_lt _ hne0
            rcases List.mem_cons.mp hcr2mem with rfl | hcr2rest
            · rw [← hcr2p] at hlt
              exact lt_irrefl _ hlt
            · have hle := h0 cr2 hcr2rest
              rw [hcr2p] at hle
              exact pathLe_lt_absurd hle hlt
    obtain ⟨b, hbase, c, hc, hvals⟩ := hkey
    rw [commitLoop, hbase]
    refine List.Forall₂.cons ⟨rfl, rfl, c, hc, hvals⟩ ?_
    refine ih ((cr0.path, dupdate b cr0.own_attrib) :: cache)
      (fun cr hcr => hrows cr (List.mem_cons_of_mem _ hcr))
      ?_ hrest ?_
    · intro c2 hc2
      rcases List.mem_cons.mp hc2 with rfl | hc2rest
      · refine ⟨f, hf, ⟨segs, hsegs, hpath⟩, c, ?_, hvals⟩
        rw [← hid]
        exact hc
      · exact hcache c2 hc2rest
    · intro cr hcr hcrInh hcrPar
      rcases hres cr (List.mem_cons_of_mem _ hcr) hcrInh hcrPar with
        ⟨c0, hc0mem, hc0key⟩ | ⟨cr2, hcr2mem, hcr2p⟩
      · exact Or.inl ⟨c0, List.mem_cons_of_mem _ hc0mem, hc0key⟩
      · rcases List.mem_cons.mp hcr2mem with rfl | hcr2rest
        · exact Or.inl ⟨(cr2.path, dupdate b cr2.own_attrib),
            List.mem_cons_self _ _, hcr2p⟩
        · exact Or.inr ⟨cr2, hcr2rest, hcr2p⟩

/-! ## Assembling the commit correctness statement -/

theorem commitRowOf_some (db : DBState) (a b : String) (cr : CommitRow)
    (h : commitRowOf db a b = some cr) :
    ∃ f, db.folders.find? (fun g => g.id == a) = some f ∧
      cr = { id := a, path := b, own_attrib := f.attrib, parent_id := f.parent_id,
             inherited_attrib := f.parent_id.bind
               (fun pid => (exportedFor db pid).map (fun e => e.attrib)) } := by
  unfold commitRowOf at h
  cases hf : db.folders.find? (fun g => g.id == a) with
  | none => rw [hf] at h; exact absurd h (by simp)
  | some f =>
    rw [hf, Option.map_some'] at h
    exact ⟨f, rfl, (Option.some.inj h).symm⟩

theorem commitRowOf_path (db : DBState) (a b : String) (cr : CommitRow)
    (h : commitRowOf db a b = some cr) : cr.path = b := by
  obtain ⟨f, _, rfl⟩ := commitRowOf_some db a b cr h
  rfl

theorem mem_pendingRows (db : DBState) (cr : CommitRow) :
    cr ∈ pendingRows db ↔
      ((∃ h ∈ db.hierarchy, commitRowOf db h.1 h.2 = some cr) ∧
        db.exported.any (fun e => e.path == cr.path) = false) := by
  unfold pendingRows
  rw [List.mem_filter, List.mem_filterMap]
  constructor
  · rintro ⟨⟨h, hm, hro⟩, hpred⟩
    refine ⟨⟨h, hm, hro⟩, ?_⟩
    rwa [Bool.not_eq_true'] at hpred
  · rintro ⟨⟨h, hm, hro⟩, hpred⟩
    refine ⟨⟨h, hm, hro⟩, ?_⟩
    rwa [Bool.not_eq_true']

theorem mem_refresh_hierarchy (db : DBState) (h : String × String) :
    h ∈ (refreshHierarchy db).hierarchy ↔
      ∃ f ∈ db.folders, ∃ segs, segsOf db f.id = some segs ∧ h = (f.id, joinPath segs) := by
  show h ∈ db.folders.filterMap
      (fun f => (folderPath db.folders f.id).map (fun p => (f.id, p))) ↔ _
  rw [List.mem_filterMap]
  constructor
  · rintro ⟨f, hf, hmk⟩
    cases hcs : computeSegs db.folders db.folders.length f.id with
    | none =>
      unfold folderPath at hmk
      rw [hcs] at hmk
      exact absurd hmk (by simp)
    | some segs =>
      unfold folderPath at hmk
      rw [hcs] at hmk
      simp only [Option.map_some'] at hmk
      exact ⟨f, hf, segs, hcs, (Option.some.inj hmk).symm⟩
  · rintro ⟨f, hf, segs, hsegs, rfl⟩
    refine ⟨f, hf, ?_⟩
    unfold folderPath
    rw [show computeSegs db.folders db.folders.length f.id = some segs from hsegs]
    rfl

theorem pending_RowOk (db : DBState)
    (hnodup : (db.folders.map (fun f => f.id)).Nodup) :
    ∀ cr ∈ commitPending (refreshHierarchy db), RowOk db cr := by
  intro cr hcr
  unfold commitPending at hcr
  rw [mem_sortByPath, mem_pendingRows] at hcr
  obtain ⟨⟨h, hmemH, hrowOf⟩, _⟩ := hcr
  obtain ⟨f, hf, segs, hsegs, rfl⟩ := (mem_refresh_hierarchy db h).mp hmemH
  obtain ⟨f2, hfind2, hcr_eq⟩ :=
    commitRowOf_some (refreshHierarchy db) f.id (joinPath segs) cr hrowOf
  have hfind2db : db.folders.find? (fun g => g.id == f.id) = some f2 := hfind2
  have hff : f2 = f := by
    rw [find_by_id_nodup db.folders hnodup f hf] at hfind2db
    exact (Option.some.inj hfind2db).symm
  subst hff
  subst hcr_eq
  exact ⟨f2, hf, rfl, rfl, rfl, rfl, segs, hsegs, rfl⟩

theorem pending_res (db : DBState) (wf : CommitWF db) :
    ∀ cr ∈ commitPending (refreshHierarchy db), cr.inherited_attrib = none →
      cr.parent_id ≠ none →
      ∃ cr2 ∈ commitPending (refreshHierarchy db),
        cr2.path = parentPathOf cr.path := by
  intro cr hcr hinh hpar
  obtain ⟨f, hf, hid, hown, hparf, hia, segs, hsegs, hpath⟩ :=
    pending_RowOk db wf.ids_nodup cr hcr
  cases hp : f.parent_id with
  | none =>
    rw [hparf, hp] at hpar
    exact absurd rfl hpar
  | some pid =>
    obtain ⟨psegs, pc0, hsegsp, hsegseq, hpcLen, hcascf, hppeq, hpne, hpslash,
      g, hgmem, hgid⟩ := nonroot_facts db wf f hf pid hp segs hsegs
    have hexpnone : exportedFor db pid = none := by
      rw [hia, hp] at hinh
      have hinh2 : (exportedFor db pid).map (fun e => e.attrib) = none := hinh
      exact Option.map_eq_none'.mp hinh2
    have hsegsg : segsOf db g.id = some psegs := by rw [hgid]; exact hsegsp
    have hmemH : (g.id, joinPath psegs) ∈ (refreshHierarchy db).hierarchy :=
      (mem_refresh_hierarchy db _).mpr ⟨g, hgmem, psegs, hsegsg, rfl⟩
    have hfindg : db.folders.find? (fun x => x.id == g.id) = some g :=
      find_by_id_nodup db.folders wf.ids_nodup g hgmem
    have hrowOf : commitRowOf (refreshHierarchy db) g.id (joinPath psegs) = some
        { id := g.id, path := joinPath psegs, own_attrib := g.attrib
          parent_id := g.parent_id
          inherited_attrib := g.parent_id.bind
            (fun pid2 => (exportedFor (refreshHierarchy db) pid2).map
              (fun e => e.attrib)) } := by
      unfold commitRowOf
      have hfindg2 : (refreshHierarchy db).folders.find? (fun x => x.id == g.id) = some g :=
        hfindg
      rw [hfindg2]
      rfl
    have hpredg : (refreshHierarchy db).exported.any
        (fun e => e.path == joinPath psegs) = false := by
      rw [List.any_eq_false]
      intro e hemem hbeq
      have hbeq2 : e.path = joinPath psegs := beq_iff_eq.mp hbeq
      have hemem2 : e ∈ db.exported := hemem
      obtain ⟨f2, hf2, hfid2, hmapsegs, _⟩ := wf.exported_ok e hemem2
      cases hs2 : segsOf db f2.id with
      | none => rw [hs2] at hmapsegs; exact absurd hmapsegs (by simp)
      | some segs2 =>
        rw [hs2, Option.map_some'] at hmapsegs
        have hjp2 : joinPath segs2 = e.path := Option.some.inj hmapsegs
        have hs2slash : ∀ s ∈ segs2, ('/' : Char) ∉ s.toList := by
          intro s hs
          obtain ⟨f3, hf3, rfl⟩ := computeSegs_names db.folders db.folders.length
            f2.id segs2 hs2 s hs
          exact (wf.names_ok f3 hf3).2
        have hs2ne : segs2 ≠ [] :=
          computeSegs_ne_nil db.folders db.folders.length f2.id segs2 hs2
        have hsegs2eq : segs2 = psegs :=
          joinPath_inj segs2 psegs hs2ne hs2slash hpne hpslash (by rw [hjp2, hbeq2])
        have hsegsf2 : segsOf db f2.id = segsOf db g.id := by
          rw [hs2, hsegs2eq, hsegsg]
        have hf2id : f2.id = pid := by
          rw [wf.path_inj f2 hf2 g hgmem hsegsf2, hgid]
        have hfidpid : e.folder_id = pid := by rw [hfid2, hf2id]
        have hnomem := List.find?_eq_none.mp hexpnone e hemem2
        exact hnomem (by rw [beq_iff_eq]; exact hfidpid)
    refine ⟨{ id := g.id, path := joinPath psegs, own_attrib := g.attrib
              parent_id := g.parent_id
              inherited_attrib := g.parent_id.bind
                (fun pid2 => (exportedFor (refreshHierarchy db) pid2).map
                  (fun e => e.attrib)) }, ?_, ?_⟩
    · unfold commitPending
      rw [mem_sortByPath, mem_pendingRows]
      exact ⟨⟨(g.id, joinPath psegs), hmemH, hrowOf⟩, hpredg⟩
    · show joinPath psegs = parentPathOf cr.path
      rw [hpath]
      exact hppeq.symm

theorem filterMap_commitRowOf_paths (db : DBState) (l : List (String × String)) :
    ((l.filterMap (fun h => commitRowOf db h.1 h.2)).map (fun cr => cr.path)).Sublist
      (l.map (fun h => h.2)) := by
  induction l with
  | nil => exact List.nil_sublist _
  | cons h t ih =>
    rw [List.filterMap_cons]
    cases hro : commitRowOf db h.1 h.2 with
    | none => exact ih.cons _
    | some cr =>
      rw [List.map_cons, List.map_cons, commitRowOf_path db h.1 h.2 cr hro]
      exact ih.cons₂ _

theorem pendingRows_paths_sublist (db : DBState) :
    ((pendingRows db).map (fun cr => cr.path)).Sublist (db.hierarchy.map (fun h => h.2)) := by
  unfold pendingRows
  exact ((List.filter_sublist _).map _).trans (filterMap_commitRowOf_paths db db.hierarchy)

theorem refresh_paths_nodup_aux (db : DBState) (wf : CommitWF db) :
    ∀ (l : List FolderRow), (∀ f ∈ l, f ∈ db.folders) →
    (l.map (fun f => f.id)).Nodup →
    ((l.filterMap (fun f => (folderPath db.folders f.id).map (fun p => (f.id, p)))).map
      (fun h => h.2)).Nodup := by
  intro l
  induction l with
  | nil => intro _ _; simp
  | cons f t ih =>
    intro hsub hnodup
    rw [List.map_cons, List.nodup_cons] at hnodup
    obtain ⟨hfid, hrest⟩ := hnodup
    rw [List.filterMap_cons]
    cases hcf : folderPath db.folders f.id with
    | none => exact ih (fun x hx => hsub x (List.mem_cons_of_mem _ hx)) hrest
    | some p =>
      rw [Option.map_some', List.map_cons, List.nodup_cons]
      refine ⟨?_, ih (fun x hx => hsub x (List.mem_cons_of_mem _ hx)) hrest⟩
      intro hmem
      rw [List.mem_map] at hmem
      obtain ⟨y, hy, hyp⟩ := hmem
      rw [List.mem_filterMap] at hy
      obtain ⟨g2, hg2, hmk⟩ := hy
      cases hcg : folderPath db.folders g2.id with
      | none => rw [hcg] at hmk; exact absurd hmk (by simp)
      | some q =>
        rw [hcg, Option.map_some'] at hmk
        have hyeq : y = (g2.id, q) := (Option.some.inj hmk).symm
        have hqp : q = p := by rw [hyeq] at hyp; exact hyp
        -- p and q come from joinPath of the two folders' segments
        cases hsf : segsOf db f.id with
        | none =>
          unfold folderPath at hcf
          rw [show computeSegs db.folders db.folders.length f.id = none from hsf] at hcf
          exact absurd hcf (by simp)
        | some segsf =>
          cases hsg : segsOf db g2.id with
          | none =>
            unfold folderPath at hcg
            rw [show computeSegs db.folders db.folders.length g2.id = none from hsg] at hcg
            exact absurd hcg (by simp)
          | some segsg =>
            have hpf : p = joinPath segsf := by
              unfold folderPath at hcf
              rw [show computeSegs db.folders db.folders.length f.id = some segsf
                from hsf, Option.map_some'] at hcf
              exact (Option.some.inj hcf).symm
            have hqg : q = joinPath segsg := by
              unfold folderPath at hcg
              rw [show computeSegs db.folders db.folders.length g2.id = some segsg
                from hsg, Option.map_some'] at hcg
              exact (Option.some.inj hcg).symm
            have hfmem : f ∈ db.folders := hsub f (List.mem_cons_self _ _)
            have hgmem : g2 ∈ db.folders := hsub g2 (List.mem_cons_of_mem _ hg2)
            have hslashf : ∀ s ∈ segsf, ('/' : Char) ∉ s.toList := by
              intro s hs
              obtain ⟨f3, hf3, rfl⟩ := computeSegs_names db.folders db.folders.length
                f.id segsf hsf s hs
              exact (wf.names_ok f3 hf3).2
            have hslashg : ∀ s ∈ segsg, ('/' : Char) ∉ s.toList := by
              intro s hs
              obtain ⟨f3, hf3, rfl⟩ := computeSegs_names db.folders db.folders.length
                g2.id segsg hsg s hs
              exact (wf.names_ok f3 hf3).2
            have hsegseq : segsg = segsf := by
              refine joinPath_inj segsg segsf
                (computeSegs_ne_nil db.folders db.folders.length g2.id segsg hsg) hslashg
                (computeSegs_ne_nil db.folders db.folders.length f.id segsf hsf) hslashf ?_
              rw [← hqg, ← hpf, hqp]
            have hideq : g2.id = f.id :=
              wf.path_inj g2 hgmem f hfmem (by rw [hsg, hsf, hsegseq])
            exact hfid (hideq ▸ List.mem_map_of_mem (fun x => x.id) hg2)

theorem refresh_paths_nodup (db : DBState) (wf : CommitWF db) :
    ((refreshHierarchy db).hierarchy.map (fun h => h.2)).Nodup :=
  refresh_paths_nodup_aux db wf db.folders (fun _ hf => hf) wf.ids_nodup

theorem forall2_map_eq {α β γ : Type} {R : α → β → Prop} {f : α → γ} {g : β → γ}
    (hfg : ∀ a b, R a b → g b = f a) :
    ∀ {l1 : List α} {l2 : List β}, List.Forall₂ R l1 l2 → l2.map g = l1.map f := by
  intro l1 l2 h
  induction h with
  | nil => rfl
  | cons hr _ ih => simp only [List.map_cons, hfg _ _ hr, ih]

theorem commit_exported_eq (db : DBState) (fid : String) :
    (FolderEntity.commit db fid).exported =
      db.exported ++ commitInserted (refreshHierarchy db) := rfl

theorem no_exported_path (db : DBState) (wf : CommitWF db) (f : FolderRow)
    (hf : f ∈ db.folders) (segs : List String) (hsegs : segsOf db f.id = some segs)
    (he : db.exported.find? (fun e => e.folder_id == f.id) = none) :
    db.exported.any (fun e => e.path == joinPath segs) = false := by
  rw [List.any_eq_false]
  intro e hemem hbeq
  have hbeq2 : e.path = joinPath segs := beq_iff_eq.mp hbeq
  obtain ⟨f2, hf2, hfid2, hmapsegs, _⟩ := wf.exported_ok e hemem
  cases hs2 : segsOf db f2.id with
  | none => rw [hs2] at hmapsegs; exact absurd hmapsegs (by simp)
  | some segs2 =>
    rw [hs2, Option.map_some'] at hmapsegs
    have hjp2 : joinPath segs2 = e.path := Option.some.inj hmapsegs
    have hs2slash : ∀ s ∈ segs2, ('/' : Char) ∉ s.toList := by
      intro s hs
      obtain ⟨f3, hf3, rfl⟩ := computeSegs_names db.folders db.folders.length
        f2.id segs2 hs2 s hs
      exact (wf.names_ok f3 hf3).2
    have hsslash : ∀ s ∈ segs, ('/' : Char) ∉ s.toList := by
      intro s hs
      obtain ⟨f3, hf3, rfl⟩ := computeSegs_names db.folders db.folders.length
        f.id segs hsegs s hs
      exact (wf.names_ok f3 hf3).2
    have hsegs2eq : segs2 = segs :=
      joinPath_inj segs2 segs
        (computeSegs_ne_nil db.folders db.folders.length f2.id segs2 hs2) hs2slash
        (computeSegs_ne_nil db.folders db.folders.length f.id segs hsegs) hsslash
        (by rw [hjp2, hbeq2])
    have hf2id : f2.id = f.id :=
      wf.path_inj f2 hf2 f hf (by rw [hs2, hsegs2eq, hsegs])
    have hnomem := List.find?_eq_none.mp he e hemem
    exact hnomem (by rw [beq_iff_eq, hfid2, hf2id])

theorem pending_row_of_folder (db : DBState) (wf : CommitWF db) (f : FolderRow)
    (hf : f ∈ db.folders) (segs : List String) (hsegs : segsOf db f.id = some segs)
    (he : db.exported.find? (fun e => e.folder_id == f.id) = none) :
    ∃ cr ∈ commitPending (refreshHierarchy db), cr.id = f.id ∧ cr.path = joinPath segs := by
  have hmemH : (f.id, joinPath segs) ∈ (refreshHierarchy db).hierarchy :=
    (mem_refresh_hierarchy db _).mpr ⟨f, hf, segs, hsegs, rfl⟩
  have hfindf : db.folders.find? (fun x => x.id == f.id) = some f :=
    find_by_id_nodup db.folders wf.ids_nodup f hf
  have hrowOf : commitRowOf (refreshHierarchy db) f.id (joinPath segs) = some
      { id := f.id, path := joinPath segs, own_attrib := f.attrib
        parent_id := f.parent_id
        inherited_attrib := f.parent_id.bind
          (fun pid2 => (exportedFor (refreshHierarchy db) pid2).map
            (fun e => e.attrib)) } := by
    unfold commitRowOf
    have hfindf2 : (refreshHierarchy db).folders.find? (fun x => x.id == f.id) = some f :=
      hfindf
    rw [hfindf2]
    rfl
  have hpred : (refreshHierarchy db).exported.any
      (fun e => e.path == joinPath segs) = false :=
    no_exported_path db wf f hf segs hsegs he
  refine ⟨{ id := f.id, path := joinPath segs, own_attrib := f.attrib
            parent_id := f.parent_id
            inherited_attrib := f.parent_id.bind
              (fun pid2 => (exportedFor (refreshHierarchy db) pid2).map
                (fun e => e.attrib)) }, ?_, rfl, rfl⟩
  unfold commitPending
  rw [mem_sortByPath, mem_pendingRows]
  exact ⟨⟨(f.id, joinPath segs), hmemH, hrowOf⟩, hpred⟩

/-- commit on a well-formed state: every inserted row belongs to a
folder and carries its path and its correctly cascaded bag; after the
commit every folder has exactly one exported row (a surviving one or a
freshly inserted one) with the correct merged values. -/
theorem commit_master (db : DBState) (wf : CommitWF db) :
    (∀ r ∈ commitInserted (refreshHierarchy db),
      ∃ f ∈ db.folders, r.folder_id = f.id ∧
        (segsOf db f.id).map joinPath = some r.path ∧
        ∃ c, cascOf db f.id = some c ∧ ∀ k, dget r.attrib k = dget c k) ∧
    (∀ f ∈ db.folders,
      ∃ r ∈ db.exported ++ commitInserted (refreshHierarchy db),
        r.folder_id = f.id ∧ (segsOf db f.id).map joinPath = some r.path ∧
        ∃ c, cascOf db f.id = some c ∧ ∀ k, dget r.attrib k = dget c k) ∧
    ((db.exported ++ commitInserted (refreshHierarchy db)).map (fun e => e.path)).Nodup := by
  have hforall0 := commitLoop_wf db wf (commitPending (refreshHierarchy db)) []
    (pending_RowOk db wf.ids_nodup)
    (fun c hc => absurd hc (List.not_mem_nil c))
    (sortByPath_sorted _)
    (fun cr hcr hinh hpar => Or.inr (pending_res db wf cr hcr hinh hpar))
  have hforall2 : List.Forall₂ (fun (cr : CommitRow) (r : ExportedRow) =>
      r.folder_id = cr.id ∧ r.path = cr.path ∧
      ∃ c, cascOf db cr.id = some c ∧ ∀ k, dget r.attrib k = dget c k)
      (commitPending (refreshHierarchy db)) (commitInserted (refreshHierarchy db)) :=
    hforall0
  refine ⟨?_, ?_, ?_⟩
  · intro r hr
    obtain ⟨cr, hcrmem, hrel⟩ := forall2_mem_right hforall2 r hr
    obtain ⟨f, hf, hid, _, _, _, segs, hsegs, hpath⟩ :=
      pending_RowOk db wf.ids_nodup cr hcrmem
    obtain ⟨hfid, hrpath, c, hc, hvals⟩ := hrel
    refine ⟨f, hf, by rw [hfid, hid], ?_, c, ?_, hvals⟩
    · rw [hsegs, Option.map_some', hrpath, hpath]
    · rw [← hid]
      exact hc
  · intro f hf
    cases he : db.exported.find? (fun e => e.folder_id == f.id) with
    | some e =>
      have hemem : e ∈ db.exported := List.mem_of_find?_eq_some he
      have heid0 := List.find?_some he
      have heid : e.folder_id = f.id := beq_iff_eq.mp heid0
      obtain ⟨f2, hf2, hfid2, hmapsegs, hequiv⟩ := wf.exported_ok e hemem
      have hff2 : f2 = f :=
        folders_id_unique db.folders wf.ids_nodup f2 f hf2 hf (by rw [← hfid2, heid])
      subst hff2
      refine ⟨e, List.mem_append_left _ hemem, heid, hmapsegs, ?_⟩
      cases hcv : cascOf db f2.id with
      | none => rw [hcv] at hequiv; exact absurd hequiv (by simp)
      | some c =>
        rw [hcv, Option.map_some'] at hequiv
        have hdeq : dictEquiv e.attrib c = true := Option.some.inj hequiv
        exact ⟨c, rfl, (dictEquiv_iff _ _).mp hdeq⟩
    | none =>
      have hchain := wf.chains f hf
      cases hsegs : segsOf db f.id with
      | none => rw [hsegs] at hchain; exact absurd hchain (by simp)
      | some segs =>
        obtain ⟨cr, hcrmem, hcrid, hcrpath⟩ :=
          pending_row_of_folder db wf f hf segs hsegs he
        obtain ⟨r, hrmem, hfid, hrpath, c, hc, hvals⟩ :=
          forall2_mem_left hforall2 cr hcrmem
        refine ⟨r, List.mem_append_right _ hrmem, by rw [hfid, hcrid], ?_, c, ?_, hvals⟩
        · rw [Option.map_some', hrpath, hcrpath]
        · rw [← hcrid]
          exact hc
  · have hpaths : (commitInserted (refreshHierarchy db)).map (fun r => r.path) =
        (commitPending (refreshHierarchy db)).map (fun cr => cr.path) :=
      forall2_map_eq (fun a b hr => hr.2.1) hforall2
    have hpendnodup : ((commitPending (refreshHierarchy db)).map
        (fun cr => cr.path)).Nodup := by
      have hperm : List.Perm ((commitPending (refreshHierarchy db)).map
          (fun cr => cr.path)) ((pendingRows (refreshHierarchy db)).map
          (fun cr => cr.path)) :=
        (sortByPath_perm (pendingRows (refreshHierarchy db))).map _
      rw [hperm.nodup_iff]
      exact ((pendingRows_paths_sublist (refreshHierarchy db)).trans
        (List.Sublist.refl _)).nodup (refresh_paths_nodup db wf)
    rw [List.map_append]
    refine List.Nodup.append wf.exported_nodup (by rw [hpaths]; exact hpendnodup) ?_
    intro a ha hb
    rw [hpaths] at hb
    rw [List.mem_map] at ha hb
    obtain ⟨e, hemem, hepath⟩ := ha
    obtain ⟨cr, hcrmem, hcrpath⟩ := hb
    have hcr2 := hcrmem
    unfold commitPending at hcr2
    rw [mem_sortByPath, mem_pendingRows] at hcr2
    obtain ⟨_, hpred⟩ := hcr2
    have hany := List.any_eq_false.mp hpred e hemem
    exact hany (by rw [beq_iff_eq, hepath, hcrpath])

/-! ## C3: save-time invalidation plus commit-time repopulation -/

/-- The spec's subtree notion: p is the folder's own path or lies
strictly below it (old path followed by a path separator). -/
def inSubtree (root p : String) : Bool :=
  p == root || likeStartsWith (root ++ "/") p

/-- Counterexample database for C3: two root folders named a and ab;
the string ab has the string a as a prefix although the folder ab is
not in the subtree of a. -/
def dbC3x : DBState :=
  { project_attrib := [("fps", 25)]
    folders :=
      [ { id := "1", name := "a", attrib := [("x", 1)] }
      , { id := "2", name := "ab", attrib := [] } ]
    hierarchy := [("1", "a"), ("2", "ab")]
    exported :=
      [ { folder_id := "1", path := "a", attrib := [("fps", 25), ("x", 1)] }
      , { folder_id := "2", path := "ab", attrib := [("fps", 25)] } ] }

def entC3x : FolderEntityState :=
  { id := "1", name := "a", folder_type := none, parent_id := none
    thumbnail_id := none
    attrib := dupdate dbC3x.project_attrib [("x", 1)]
    own_attrib := ["x"], path := "a", active := true, warned := false }

/-- Counterexample to C3 as stated: saving the folder with path a
deletes the cache row of the unrelated root folder ab, because the
DELETE uses path LIKE 'a%', a plain string-prefix match, not a subtree
match. -/
theorem C3_counterexample_prefix_not_subtree :
    inSubtree "a" "ab" = false ∧
    (∃ e ∈ dbC3x.exported, e.path = "ab") ∧
    (FolderEntity.saveUpdate dbC3x entC3x).exported.all
      (fun e => !(e.path == "ab")) = true := by
  decide

/-- C3 (amended): a save of an existing folder deletes exactly the
cache rows whose path has the folder's old path as a string prefix -- a
superset of the old subtree that can also hit unrelated folders whose
path merely extends the old path without a separator -- and rows
without that prefix survive the save and the commit untouched; on a
well-formed resulting state the commit then repopulates the cache so
that every folder again has exactly one row holding its correctly
cascaded bag. -/
theorem C3_save_prefix_invalidation_and_repopulation
    (db : DBState) (ent : FolderEntityState)
    (wf : CommitWF (FolderEntity.saveUpdate db ent)) :
    (∀ e, e ∈ (FolderEntity.saveUpdate db ent).exported ↔
      (e ∈ db.exported ∧ likeStartsWith ent.path e.path = false)) ∧
    (∀ e ∈ db.exported, likeStartsWith ent.path e.path = false →
      e ∈ (FolderEntity.commit (FolderEntity.saveUpdate db ent) ent.id).exported) ∧
    (∀ f ∈ (FolderEntity.saveUpdate db ent).folders,
      ∃ r ∈ (FolderEntity.commit (FolderEntity.saveUpdate db ent) ent.id).exported,
        r.folder_id = f.id ∧
        (segsOf (FolderEntity.saveUpdate db ent) f.id).map joinPath = some r.path ∧
        ∃ c, cascOf (FolderEntity.saveUpdate db ent) f.id = some c ∧
          ∀ k, dget r.attrib k = dget c k) ∧
    ((FolderEntity.commit (FolderEntity.saveUpdate db ent) ent.id).exported.map
      (fun e => e.path)).Nodup := by
  have hmem : ∀ e, e ∈ (FolderEntity.saveUpdate db ent).exported ↔
      (e ∈ db.exported ∧ likeStartsWith ent.path e.path = false) := by
    intro e
    show e ∈ db.exported.filter (fun e2 => !(likeStartsWith ent.path e2.path)) ↔ _
    rw [List.mem_filter, Bool.not_eq_true']
  obtain ⟨hins, hall, hnodup⟩ := commit_master (FolderEntity.saveUpdate db ent) wf
  refine ⟨hmem, ?_, ?_, ?_⟩
  · intro e hemem hpref
    rw [commit_exported_eq]
    exact List.mem_append_left _ ((hmem e).mpr ⟨hemem, hpref⟩)
  · intro f hf
    obtain ⟨r, hrmem, hrest⟩ := hall f hf
    refine ⟨r, ?_, hrest⟩
    rw [commit_exported_eq]
    exact hrmem
  · rw [commit_exported_eq]
    exact hnodup

/-- Witness database for C3: the a / ab pair with both cache rows
present; after the save both are gone and the commit rebuilds correct
rows for both folders. -/
def dbC3w : DBState := dbC3x

def entC3w : FolderEntityState := entC3x

def rowC3 : ExportedRow := { folder_id := "2", path := "ab", attrib := [("fps", 25)] }

theorem C3_save_prefix_invalidation_and_repopulation_witness :
    ((FolderEntity.commit (FolderEntity.saveUpdate dbC3w entC3w) entC3w.id).exported.map
      (fun e => e.path)).Nodup ∧
    (rowC3 ∈ (FolderEntity.saveUpdate dbC3w entC3w).exported ↔
      (rowC3 ∈ dbC3w.exported ∧ likeStartsWith entC3w.path rowC3.path = false)) :=
  ⟨(C3_save_prefix_invalidation_and_repopulation dbC3w entC3w
      ⟨by decide, by decide, by decide, by decide, by decide, by decide⟩).2.2.2,
   (C3_save_prefix_invalidation_and_repopulation dbC3w entC3w
      ⟨by decide, by decide, by decide, by decide, by decide, by decide⟩).1 rowC3⟩
